import Mathlib

/-!
# Verification of the tradia XML-translation pipeline

Shallow embedding, in Lean 4, of the core of the `tradia` repository:

* `app/translator.py` — the `CircuitBreaker` state machine, the retrying
  `_generate` loop and the request shaping of `translate_text`;
* `app/main.py` — `_sanitize_json_string` and the tolerant JSON payload
  recovery parser `_load_json_payload`;
* `app/xml_processor.py` — `extract_translatable_segments`,
  `_get_element_xpath`, encoding detection in `parse` and the
  serialization configuration of `to_bytes`;
* `app/scenari.py` — the `translate_file` per-document translation loop.

Python strings are modelled as `List Char`; machine time (`time.time()`)
is modelled as a natural number of seconds; Python `json.loads` /
`json.dumps` are modelled on the JSON fragment actually exchanged here
(null, booleans, integer numbers, strings, arrays, objects).
-/

namespace Tradia

/-! ## Basic string helpers (Python semantics) -/

/-- Python whitespace characters stripped by `str.strip()` (ASCII range). -/
def isPySpace (c : Char) : Bool :=
  c = ' ' || c = '\t' || c = '\n' || c = '\r' || c = '\x0b' || c = '\x0c'

/-- Python `str.strip()`: drop leading and trailing whitespace. -/
def pyStrip (s : List Char) : List Char :=
  ((s.dropWhile isPySpace).reverse.dropWhile isPySpace).reverse

theorem char_toNat_ofNat (n : Nat) (h : n < 55296) : (Char.ofNat n).toNat = n := by
  have hv : Nat.isValidChar n := Or.inl h
  rw [Char.ofNat, dif_pos hv]
  simp only [Char.ofNatAux, Char.toNat, UInt32.toNat, BitVec.toNat_ofNatLt]

/-- Fueled decimal printer (the fuel only drives structural recursion). -/
def natDigitsF : Nat → Nat → List Char
  | 0, _ => []
  | fuel + 1, n =>
      if n < 10 then [Char.ofNat (48 + n)]
      else natDigitsF fuel (n / 10) ++ [Char.ofNat (48 + n % 10)]

/-- Decimal digits of a natural number, most significant first; mirrors the
decimal rendering of a Python f-string such as `f"{index}"`. -/
def natDigits (n : Nat) : List Char := natDigitsF (n + 1) n

theorem natDigitsF_irrel (n : Nat) : ∀ f1 f2, n < f1 → n < f2 →
    natDigitsF f1 n = natDigitsF f2 n := by
  induction n using Nat.strong_induction_on with
  | _ n ih =>
    intro f1 f2 h1 h2
    match f1, f2 with
    | g1 + 1, g2 + 1 =>
      rw [natDigitsF, natDigitsF]
      by_cases h : n < 10
      · rw [if_pos h, if_pos h]
      · rw [if_neg h, if_neg h]
        have hlt : n / 10 < n := Nat.div_lt_self (by omega) (by omega)
        rw [ih (n / 10) hlt g1 g2 (by omega) (by omega)]

theorem natDigits_eq_base (n : Nat) (h : n < 10) :
    natDigits n = [Char.ofNat (48 + n)] := by
  rw [natDigits, natDigitsF, if_pos h]

theorem natDigits_eq_step (n : Nat) (h : ¬ n < 10) :
    natDigits n = natDigits (n / 10) ++ [Char.ofNat (48 + n % 10)] := by
  have hlt : n / 10 < n := Nat.div_lt_self (by omega) (by omega)
  rw [natDigits, natDigits, natDigitsF, if_neg h,
    natDigitsF_irrel (n / 10) n (n / 10 + 1) (by omega) (by omega)]

/-- Fold a digit list back to the natural number it denotes. -/
def digitsToNat (acc : Nat) : List Char → Nat
  | [] => acc
  | c :: cs => digitsToNat (acc * 10 + (c.toNat - 48)) cs

theorem digitsToNat_nil (acc : Nat) : digitsToNat acc [] = acc := rfl

theorem digitsToNat_cons (acc : Nat) (c : Char) (cs : List Char) :
    digitsToNat acc (c :: cs) = digitsToNat (acc * 10 + (c.toNat - 48)) cs := rfl

theorem digitsToNat_append (acc : Nat) (a b : List Char) :
    digitsToNat acc (a ++ b) = digitsToNat (digitsToNat acc a) b := by
  induction a generalizing acc with
  | nil => rfl
  | cons c cs ih =>
    rw [List.cons_append, digitsToNat_cons, digitsToNat_cons]
    exact ih _

theorem digitsToNat_natDigits (acc n : Nat) :
    digitsToNat acc (natDigits n) = acc * 10 ^ (natDigits n).length + n := by
  induction n using Nat.strong_induction_on generalizing acc with
  | _ n ih =>
    by_cases h : n < 10
    · rw [natDigits_eq_base n h]
      rw [digitsToNat_cons, char_toNat_ofNat _ (by omega), digitsToNat_nil]
      simp only [List.length_cons, List.length_nil, pow_one]
      omega
    · rw [natDigits_eq_step n h]
      have hlt : n / 10 < n := Nat.div_lt_self (by omega) (by omega)
      rw [digitsToNat_append, ih (n / 10) hlt]
      rw [digitsToNat_cons, char_toNat_ofNat _ (by omega), digitsToNat_nil]
      simp only [List.length_append, List.length_cons, List.length_nil]
      rw [pow_succ, ← Nat.mul_assoc]
      generalize acc * 10 ^ (natDigits (n / 10)).length = A
      omega

/-- Decimal rendering is injective. -/
theorem natDigits_injective : Function.Injective natDigits := by
  intro a b h
  have ha := digitsToNat_natDigits 0 a
  have hb := digitsToNat_natDigits 0 b
  rw [h] at ha
  simp only [Nat.zero_mul, Nat.zero_add] at ha hb
  omega

/-! ## Circuit breaker (`app/translator.py`, class `CircuitBreaker`) -/

/-- The three states of the breaker (`closed`, `open`, `half-open`). -/
inductive BreakerState where
  | closed
  | opened
  | halfOpen
deriving DecidableEq, Repr

/-- `CircuitBreaker.__init__`: configuration plus mutable fields.
`last_failure_time` and the clock are in whole seconds. -/
structure CircuitBreaker where
  failure_threshold : Nat
  timeout : Nat
  failures : Nat
  last_failure_time : Nat
  state : BreakerState
deriving DecidableEq, Repr

/-- Fresh breaker: `failures = 0`, `last_failure_time = 0`, state `closed`. -/
def CircuitBreaker.init (failure_threshold timeout : Nat) : CircuitBreaker :=
  { failure_threshold := failure_threshold, timeout := timeout,
    failures := 0, last_failure_time := 0, state := .closed }

/-- `CircuitBreaker.call_failed` at clock time `now`: increment `failures`,
record the failure time, and open the breaker when the threshold is reached
(the Python method mutates the two fields, then checks the threshold). -/
def CircuitBreaker.call_failed (cb : CircuitBreaker) (now : Nat) : CircuitBreaker :=
  if cb.failures + 1 ≥ cb.failure_threshold then
    { cb with failures := cb.failures + 1, last_failure_time := now, state := .opened }
  else
    { cb with failures := cb.failures + 1, last_failure_time := now }

/-- `CircuitBreaker.call_succeeded`: reset to `closed` with zero failures. -/
def CircuitBreaker.call_succeeded (cb : CircuitBreaker) : CircuitBreaker :=
  { cb with failures := 0, state := .closed }

/-- `CircuitBreaker.can_attempt` at clock time `now`: returns the decision and
the (possibly updated) breaker.  In state `open`, strictly more than `timeout`
seconds after the last failure the state moves to `half-open` and the attempt
is allowed. -/
def CircuitBreaker.can_attempt (cb : CircuitBreaker) (now : Nat) : Bool × CircuitBreaker :=
  match cb.state with
  | .closed => (true, cb)
  | .opened =>
      if now - cb.last_failure_time > cb.timeout then
        (true, { cb with state := .halfOpen })
      else
        (false, cb)
  | .halfOpen => (true, cb)

@[simp] theorem init_failure_threshold (f t : Nat) :
    (CircuitBreaker.init f t).failure_threshold = f := rfl

@[simp] theorem init_timeout (f t : Nat) : (CircuitBreaker.init f t).timeout = t := rfl

@[simp] theorem init_failures (f t : Nat) : (CircuitBreaker.init f t).failures = 0 := rfl

@[simp] theorem init_state (f t : Nat) :
    (CircuitBreaker.init f t).state = .closed := rfl

theorem call_failed_failures (cb : CircuitBreaker) (now : Nat) :
    (cb.call_failed now).failures = cb.failures + 1 := by
  unfold CircuitBreaker.call_failed
  split <;> rfl

theorem call_failed_threshold (cb : CircuitBreaker) (now : Nat) :
    (cb.call_failed now).failure_threshold = cb.failure_threshold := by
  unfold CircuitBreaker.call_failed
  split <;> rfl

theorem call_failed_timeout (cb : CircuitBreaker) (now : Nat) :
    (cb.call_failed now).timeout = cb.timeout := by
  unfold CircuitBreaker.call_failed
  split <;> rfl

theorem call_failed_last (cb : CircuitBreaker) (now : Nat) :
    (cb.call_failed now).last_failure_time = now := by
  unfold CircuitBreaker.call_failed
  split <;> rfl

theorem call_failed_state (cb : CircuitBreaker) (now : Nat) :
    (cb.call_failed now).state =
      if cb.failures + 1 ≥ cb.failure_threshold then .opened else cb.state := by
  unfold CircuitBreaker.call_failed
  split <;> simp_all

theorem can_attempt_closed (cb : CircuitBreaker) (now : Nat) (h : cb.state = .closed) :
    cb.can_attempt now = (true, cb) := by
  unfold CircuitBreaker.can_attempt
  rw [h]

theorem can_attempt_halfOpen (cb : CircuitBreaker) (now : Nat) (h : cb.state = .halfOpen) :
    cb.can_attempt now = (true, cb) := by
  unfold CircuitBreaker.can_attempt
  rw [h]

theorem can_attempt_opened_recent (cb : CircuitBreaker) (now : Nat)
    (h : cb.state = .opened) (hc : ¬ now - cb.last_failure_time > cb.timeout) :
    cb.can_attempt now = (false, cb) := by
  unfold CircuitBreaker.can_attempt
  rw [h]
  simp only [if_neg hc]

theorem can_attempt_opened_elapsed (cb : CircuitBreaker) (now : Nat)
    (h : cb.state = .opened) (hc : now - cb.last_failure_time > cb.timeout) :
    cb.can_attempt now = (true, { cb with state := .halfOpen }) := by
  unfold CircuitBreaker.can_attempt
  rw [h]
  simp only [if_pos hc]

/-- A sequence of `call_failed` invocations at the given clock times. -/
def CircuitBreaker.callFailedMany (cb : CircuitBreaker) (ts : List Nat) : CircuitBreaker :=
  ts.foldl CircuitBreaker.call_failed cb

@[simp] theorem callFailedMany_nil (cb : CircuitBreaker) : cb.callFailedMany [] = cb := rfl

@[simp] theorem callFailedMany_cons (cb : CircuitBreaker) (t : Nat) (ts : List Nat) :
    cb.callFailedMany (t :: ts) = (cb.call_failed t).callFailedMany ts := rfl

theorem callFailedMany_threshold (cb : CircuitBreaker) (ts : List Nat) :
    (cb.callFailedMany ts).failure_threshold = cb.failure_threshold := by
  induction ts generalizing cb with
  | nil => rfl
  | cons t ts ih => rw [callFailedMany_cons, ih, call_failed_threshold]

theorem callFailedMany_timeout (cb : CircuitBreaker) (ts : List Nat) :
    (cb.callFailedMany ts).timeout = cb.timeout := by
  induction ts generalizing cb with
  | nil => rfl
  | cons t ts ih => rw [callFailedMany_cons, ih, call_failed_timeout]

theorem callFailedMany_last (cb : CircuitBreaker) (t : Nat) (ts : List Nat) :
    (cb.callFailedMany (ts ++ [t])).last_failure_time = t := by
  induction ts generalizing cb with
  | nil =>
    rw [List.nil_append, callFailedMany_cons, callFailedMany_nil, call_failed_last]
  | cons s ts ih =>
    rw [List.cons_append, callFailedMany_cons]
    exact ih _

theorem callFailedMany_state_opened (cb : CircuitBreaker) (t : Nat) (ts : List Nat)
    (h : cb.failures + ts.length + 1 ≥ cb.failure_threshold) :
    (cb.callFailedMany (ts ++ [t])).state = .opened := by
  induction ts generalizing cb with
  | nil =>
    rw [List.nil_append, callFailedMany_cons, callFailedMany_nil, call_failed_state]
    rw [if_pos (by simpa using h)]
  | cons s ts ih =>
    rw [List.cons_append, callFailedMany_cons]
    apply ih
    rw [call_failed_failures, call_failed_threshold]
    simp only [List.length_cons] at h
    omega

theorem callFailedMany_state_closed (cb : CircuitBreaker) (ts : List Nat)
    (hc : cb.state = .closed)
    (h : cb.failures + ts.length < cb.failure_threshold) :
    (cb.callFailedMany ts).state = .closed := by
  induction ts generalizing cb with
  | nil => exact hc
  | cons t ts ih =>
    rw [callFailedMany_cons]
    simp only [List.length_cons] at h
    apply ih
    · rw [call_failed_state, if_neg (by omega)]
      exact hc
    · rw [call_failed_failures, call_failed_threshold]
      omega

/-- C1 — the circuit-breaker lifecycle: starting closed with threshold `f`
and reset timeout `t`, after exactly `f` consecutive `call_failed` invocations
(at times `ts ++ [tl]`) the state is `open` and `can_attempt` returns `false`
while at most `t` seconds have elapsed since the last failure; any fewer
failures leave it `closed`; once strictly more than `t` seconds have elapsed
the next `can_attempt` returns `true` and moves the state to `half-open`; a
`call_succeeded` from `half-open` resets `failures` to `0` and the state to
`closed`. -/
theorem circuit_breaker_lifecycle (f t : Nat)
    (ts : List Nat) (tl : Nat) (hlen : ts.length + 1 = f)
    (now later : Nat) (hnow : now ≤ tl + t) (hlater : later > tl + t) :
    ((CircuitBreaker.init f t).callFailedMany (ts ++ [tl])).state = .opened ∧
    (((CircuitBreaker.init f t).callFailedMany (ts ++ [tl])).can_attempt now).1
      = false ∧
    ((CircuitBreaker.init f t).callFailedMany ts).state = .closed ∧
    (((CircuitBreaker.init f t).callFailedMany (ts ++ [tl])).can_attempt later).1
      = true ∧
    ((((CircuitBreaker.init f t).callFailedMany (ts ++ [tl])).can_attempt
      later).2).state = .halfOpen ∧
    (((((CircuitBreaker.init f t).callFailedMany (ts ++ [tl])).can_attempt
      later).2).call_succeeded).failures = 0 ∧
    (((((CircuitBreaker.init f t).callFailedMany (ts ++ [tl])).can_attempt
      later).2).call_succeeded).state = .closed := by
  show let cb := (CircuitBreaker.init f t).callFailedMany (ts ++ [tl])
    cb.state = .opened ∧
    (cb.can_attempt now).1 = false ∧
    ((CircuitBreaker.init f t).callFailedMany ts).state = .closed ∧
    (cb.can_attempt later).1 = true ∧
    ((cb.can_attempt later).2).state = .halfOpen ∧
    (((cb.can_attempt later).2).call_succeeded).failures = 0 ∧
    (((cb.can_attempt later).2).call_succeeded).state = .closed
  intro cb
  have hopen : cb.state = .opened := by
    apply callFailedMany_state_opened
    simp only [init_failures, init_failure_threshold]
    omega
  have hlast : cb.last_failure_time = tl := callFailedMany_last _ _ _
  have htimeout : cb.timeout = t := by
    show (CircuitBreaker.callFailedMany _ _).timeout = t
    rw [callFailedMany_timeout, init_timeout]
  have hattempt : cb.can_attempt later = (true, { cb with state := .halfOpen }) :=
    can_attempt_opened_elapsed cb later hopen (by omega)
  refine ⟨hopen, ?_, ?_, ?_, ?_, ?_, ?_⟩
  · rw [can_attempt_opened_recent cb now hopen (by omega)]
  · apply callFailedMany_state_closed
    · rfl
    · simp only [init_failures, init_failure_threshold]
      omega
  · rw [hattempt]
  · rw [hattempt]
  · rw [hattempt]
    rfl
  · rw [hattempt]
    rfl

/-- Witness for `circuit_breaker_lifecycle` at `f = 5`, `t = 60`,
failures at times `0,1,2,3,4`, checks at times `10` and `65`. -/
theorem circuit_breaker_lifecycle_witness :
    ((CircuitBreaker.init 5 60).callFailedMany ([0, 1, 2, 3] ++ [4])).state = .opened ∧
    (((CircuitBreaker.init 5 60).callFailedMany ([0, 1, 2, 3] ++ [4])).can_attempt 10).1
      = false ∧
    ((CircuitBreaker.init 5 60).callFailedMany [0, 1, 2, 3]).state = .closed ∧
    (((CircuitBreaker.init 5 60).callFailedMany ([0, 1, 2, 3] ++ [4])).can_attempt 65).1
      = true ∧
    ((((CircuitBreaker.init 5 60).callFailedMany ([0, 1, 2, 3] ++ [4])).can_attempt
      65).2).state = .halfOpen ∧
    (((((CircuitBreaker.init 5 60).callFailedMany ([0, 1, 2, 3] ++ [4])).can_attempt
      65).2).call_succeeded).failures = 0 ∧
    (((((CircuitBreaker.init 5 60).callFailedMany ([0, 1, 2, 3] ++ [4])).can_attempt
      65).2).call_succeeded).state = .closed :=
  circuit_breaker_lifecycle 5 60 [0, 1, 2, 3] 4 (by decide)
    10 65 (by decide) (by decide)

/-! ## Circuit-breaker reachable-state invariant (C10) -/

/-- One externally triggered breaker operation, with the clock time at which
it happens. -/
inductive BreakerOp where
  | failed (now : Nat)
  | succeeded
  | attempt (now : Nat)

/-- Apply one operation to the breaker (for `attempt`, keep the state update
performed by `can_attempt` and discard the boolean). -/
def BreakerOp.step (cb : CircuitBreaker) : BreakerOp → CircuitBreaker
  | .failed now => cb.call_failed now
  | .succeeded => cb.call_succeeded
  | .attempt now => (cb.can_attempt now).2

/-- Run a sequence of operations from a breaker. -/
def BreakerOp.run (cb : CircuitBreaker) (ops : List BreakerOp) : CircuitBreaker :=
  ops.foldl BreakerOp.step cb

/-- The invariant: a breaker that is `open` or `half-open` has accumulated at
least `failure_threshold` failures. -/
def BreakerInv (cb : CircuitBreaker) : Prop :=
  (cb.state = .opened ∨ cb.state = .halfOpen) → cb.failures ≥ cb.failure_threshold

instance (cb : CircuitBreaker) : Decidable (BreakerInv cb) := by
  unfold BreakerInv
  infer_instance

theorem breakerInv_step (cb : CircuitBreaker) (op : BreakerOp)
    (h : BreakerInv cb) : BreakerInv (op.step cb) := by
  cases op with
  | failed now =>
    simp only [BreakerOp.step]
    intro hst
    rw [call_failed_state] at hst
    rw [call_failed_failures, call_failed_threshold]
    by_cases hcond : cb.failures + 1 ≥ cb.failure_threshold
    · omega
    · rw [if_neg hcond] at hst
      have := h hst
      omega
  | succeeded =>
    simp only [BreakerOp.step]
    intro hst
    simp only [CircuitBreaker.call_succeeded] at hst
    rcases hst with hst | hst <;> exact absurd hst (by simp)
  | attempt now =>
    simp only [BreakerOp.step]
    intro hst
    cases hs : cb.state with
    | closed =>
      rw [can_attempt_closed cb now hs] at hst ⊢
      exact h hst
    | opened =>
      by_cases hc : now - cb.last_failure_time > cb.timeout
      · rw [can_attempt_opened_elapsed cb now hs hc] at hst ⊢
        exact h (Or.inl hs)
      · rw [can_attempt_opened_recent cb now hs hc] at hst ⊢
        exact h hst
    | halfOpen =>
      rw [can_attempt_halfOpen cb now hs] at hst ⊢
      exact h hst

theorem breakerInv_run (cb : CircuitBreaker) (ops : List BreakerOp)
    (h : BreakerInv cb) : BreakerInv (BreakerOp.run cb ops) := by
  induction ops generalizing cb with
  | nil => exact h
  | cons op ops ih => exact ih _ (breakerInv_step cb op h)

/-- C10 — reachable-state invariant: in every state reachable from the fresh
breaker by any sequence of `call_failed` / `call_succeeded` / `can_attempt`
operations, being `open` or `half-open` implies `failures ≥ failure_threshold`;
consequently a single `call_failed` while `half-open` immediately re-enters
`open` even though `call_failed` has no explicit half-open branch. -/
theorem circuit_breaker_reachable_invariant (f t : Nat) (ops : List BreakerOp) :
    BreakerInv (BreakerOp.run (CircuitBreaker.init f t) ops) ∧
    (∀ now, (BreakerOp.run (CircuitBreaker.init f t) ops).state = .halfOpen →
      ((BreakerOp.run (CircuitBreaker.init f t) ops).call_failed now).state = .opened) := by
  have hinv : BreakerInv (BreakerOp.run (CircuitBreaker.init f t) ops) := by
    apply breakerInv_run
    intro h
    rcases h with h | h <;> simp only [init_state] at h <;> exact absurd h (by simp)
  refine ⟨hinv, ?_⟩
  intro now hho
  have hge := hinv (Or.inr hho)
  rw [call_failed_state, if_pos (by omega)]

/-- Witness for `circuit_breaker_reachable_invariant`: with threshold 1 and
timeout 60, a failure at time 0 followed by a `can_attempt` at time 61 reaches
`half-open`, and one more failure re-opens the breaker. -/
theorem circuit_breaker_reachable_invariant_witness :
    BreakerInv (BreakerOp.run (CircuitBreaker.init 1 60) [.failed 0, .attempt 61]) ∧
    ((BreakerOp.run (CircuitBreaker.init 1 60) [.failed 0, .attempt 61]).state = .halfOpen ∧
     ((BreakerOp.run (CircuitBreaker.init 1 60) [.failed 0, .attempt 61]).call_failed 62).state
       = .opened) := by
  have h := circuit_breaker_reachable_invariant 1 60 [.failed 0, .attempt 61]
  refine ⟨h.1, ?_, h.2 62 (by decide)⟩
  decide

/-! ## Buffered generation with retries (`OllamaTranslator._generate`) -/

/-- Backend behaviour of one attempt: `ok body` models an HTTP 200 response
whose JSON carries `response = body`; `err` models a non-200 status, a
timeout, or any other transport error. -/
inductive Outcome where
  | ok (body : List Char)
  | err

/-- An attempt succeeds exactly when it returns HTTP 200 and the
whitespace-stripped response body is non-empty (`if generated:`). -/
def Outcome.isSuccess : Outcome → Bool
  | .ok body => !(pyStrip body).isEmpty
  | .err => false

/-- The stripped body the code would return for this outcome. -/
def Outcome.stripped : Outcome → List Char
  | .ok body => pyStrip body
  | .err => []

/-- Observable trace of one `_generate` run: number of attempts issued, the
sequence of back-off sleeps (in seconds), how many successes / failures were
reported to the circuit breaker, and the returned value. -/
structure GenTrace where
  attemptsMade : Nat
  sleeps : List Nat
  successReports : Nat
  failureReports : Nat
  result : Option (List Char)
deriving DecidableEq, Repr

/-- The loop `for attempt in range(self.max_retries)` of
`OllamaTranslator._generate`: a successful attempt reports one success to the
breaker and returns the stripped body; any failed attempt other than the last
sleeps `2 ** attempt` seconds; exhausting the loop reports a single failure
and returns `None`. -/
def genLoop (maxRetries : Nat) (outcomes : Nat → Outcome)
    (attempt : Nat) (sleeps : List Nat) : GenTrace :=
  if attempt < maxRetries then
    if (outcomes attempt).isSuccess then
      { attemptsMade := attempt + 1, sleeps := sleeps, successReports := 1,
        failureReports := 0, result := some (outcomes attempt).stripped }
    else
      genLoop maxRetries outcomes (attempt + 1)
        (if attempt < maxRetries - 1 then sleeps ++ [2 ^ attempt] else sleeps)
  else
    { attemptsMade := attempt, sleeps := sleeps, successReports := 0,
      failureReports := 1, result := none }
  termination_by maxRetries - attempt
  decreasing_by omega

/-- `OllamaTranslator._generate` as a trace function of the backend
behaviour. -/
def generate (maxRetries : Nat) (outcomes : Nat → Outcome) : GenTrace :=
  genLoop maxRetries outcomes 0 []

theorem genLoop_attempts_le (m : Nat) (o : Nat → Outcome) (a : Nat) (s : List Nat)
    (ha : a ≤ m) : (genLoop m o a s).attemptsMade ≤ m := by
  suffices hk : ∀ k a s, a ≤ m → m - a = k → (genLoop m o a s).attemptsMade ≤ m from
    hk (m - a) a s ha rfl
  intro k
  induction k with
  | zero =>
    intro a s ha hk
    rw [genLoop, if_neg (by omega)]
    show a ≤ m
    omega
  | succ k ih =>
    intro a s ha hk
    rw [genLoop, if_pos (by omega)]
    split
    · show a + 1 ≤ m
      omega
    · exact ih (a + 1) _ (by omega) (by omega)

theorem genLoop_allFail (m : Nat) (o : Nat → Outcome) (a : Nat) (s : List Nat)
    (ha : a ≤ m) (h : ∀ i, a ≤ i → i < m → (o i).isSuccess = false) :
    genLoop m o a s =
      { attemptsMade := m, sleeps := s ++ (List.range' a (m - 1 - a)).map (2 ^ ·),
        successReports := 0, failureReports := 1, result := none } := by
  suffices hk : ∀ k a s, a ≤ m → (∀ i, a ≤ i → i < m → (o i).isSuccess = false) →
      m - a = k →
      genLoop m o a s =
        { attemptsMade := m, sleeps := s ++ (List.range' a (m - 1 - a)).map (2 ^ ·),
          successReports := 0, failureReports := 1, result := none } from
    hk (m - a) a s ha h rfl
  intro k
  induction k with
  | zero =>
    intro a s ha h hk
    rw [genLoop, if_neg (by omega)]
    have hm : a = m := by omega
    subst hm
    simp
  | succ k ih =>
    intro a s ha h hk
    rw [genLoop, if_pos (by omega), if_neg (by simp [h a (by omega) (by omega)])]
    by_cases hl : a < m - 1
    · rw [if_pos hl, ih (a + 1) _ (by omega) (fun i h1 h2 => h i (by omega) h2) (by omega)]
      have hr : m - 1 - a = (m - 1 - (a + 1)) + 1 := by omega
      rw [hr, List.range'_succ]
      simp
    · rw [if_neg hl, ih (a + 1) _ (by omega) (fun i h1 h2 => h i (by omega) h2) (by omega)]
      have h0 : m - 1 - a = 0 := by omega
      have h1 : m - 1 - (a + 1) = 0 := by omega
      rw [h0, h1]
      simp

theorem genLoop_firstSuccess (m : Nat) (o : Nat → Outcome) (a : Nat) (s : List Nat)
    (i : Nat) (ha : a ≤ i) (hi : i < m) (hsucc : (o i).isSuccess = true)
    (hfail : ∀ j, a ≤ j → j < i → (o j).isSuccess = false) :
    genLoop m o a s =
      { attemptsMade := i + 1, sleeps := s ++ (List.range' a (i - a)).map (2 ^ ·),
        successReports := 1, failureReports := 0,
        result := some (o i).stripped } := by
  suffices hk : ∀ k a s, a ≤ i → (∀ j, a ≤ j → j < i → (o j).isSuccess = false) →
      i - a = k →
      genLoop m o a s =
        { attemptsMade := i + 1, sleeps := s ++ (List.range' a (i - a)).map (2 ^ ·),
          successReports := 1, failureReports := 0, result := some (o i).stripped } from
    hk (i - a) a s ha hfail rfl
  intro k
  induction k with
  | zero =>
    intro a s ha hfail hk
    have hai : a = i := by omega
    subst hai
    rw [genLoop, if_pos (by omega), if_pos hsucc]
    simp
  | succ k ih =>
    intro a s ha hfail hk
    rw [genLoop, if_pos (by omega), if_neg (by simp [hfail a (by omega) (by omega)])]
    rw [if_pos (by omega)]
    rw [ih (a + 1) _ (by omega) (fun j h1 h2 => hfail j (by omega) h2) (by omega)]
    have hr : i - a = (i - (a + 1)) + 1 := by omega
    rw [hr, List.range'_succ]
    simp

/-- C2 — the `_generate` retry contract: for every backend behaviour, at most
`maxRetries` attempts are made; if the first successful attempt (HTTP 200 with
a non-empty stripped body) is attempt `i` (counted from 0), the run stops
there, sleeps `2^0, …, 2^(i-1)` seconds after the preceding failed attempts,
reports exactly one success and no failure to the breaker, and returns that
body; if every attempt fails, the run sleeps after every failed attempt except
the last, reports exactly one failure (not one per attempt), and returns
`None`. -/
theorem generate_retry_contract (m : Nat) (o : Nat → Outcome) :
    (generate m o).attemptsMade ≤ m ∧
    (∀ i, i < m → (o i).isSuccess = true → (∀ j, j < i → (o j).isSuccess = false) →
      generate m o =
        { attemptsMade := i + 1, sleeps := (List.range i).map (2 ^ ·),
          successReports := 1, failureReports := 0, result := some (o i).stripped }) ∧
    ((∀ i, i < m → (o i).isSuccess = false) →
      generate m o =
        { attemptsMade := m, sleeps := (List.range (m - 1)).map (2 ^ ·),
          successReports := 0, failureReports := 1, result := none }) := by
  refine ⟨genLoop_attempts_le m o 0 [] (by omega), ?_, ?_⟩
  · intro i hi hs hf
    rw [generate, genLoop_firstSuccess m o 0 [] i (by omega) hi hs
      (fun j _ h2 => hf j h2)]
    simp [List.range_eq_range']
  · intro h
    rw [generate, genLoop_allFail m o 0 [] (by omega) (fun i _ h2 => h i h2)]
    simp [List.range_eq_range']

/-- Witness for `generate_retry_contract` with `maxRetries = 3` and a backend
that fails once then answers `"hi"`: the run makes 2 attempts, sleeps 1 second
after the failed first attempt, and reports one success. -/
theorem generate_retry_contract_witness :
    generate 3 (fun i => if i = 0 then .err else .ok ['h', 'i']) =
      { attemptsMade := 2, sleeps := [1], successReports := 1,
        failureReports := 0, result := some ['h', 'i'] } := by
  have h := (generate_retry_contract 3 (fun i => if i = 0 then .err else .ok ['h', 'i'])).2.1
    1 (by decide) (by decide)
    (fun j hj => by
      have hj0 : j = 0 := by omega
      subst hj0
      decide)
  rw [h]
  decide

/-! ## Request shaping of `OllamaTranslator.translate_text` (C8) -/

/-- `OllamaTranslator._is_cloud_model`: a model is a reduced-capability cloud
model when its name ends in `-cloud`. -/
def isCloudModel (model : String) : Bool :=
  model.endsWith "-cloud"

/-- `OllamaTranslator.SYSTEM_PROMPTS`: the closed map from supported
(source, target) language pairs to the system prompt used for that pair. -/
def SYSTEM_PROMPTS : String → String → Option String
  | "fr", "en" => some ("You are a French to English translator. " ++
      "Translate the user\u0027s French text into English. " ++
      "Output ONLY the English translation. " ++
      "Preserve the exact same formatting as the input (line breaks, punctuation, structure). " ++
      "Do not add or remove any formatting. No explanations, no extra words.")
  | "fr", "ar" => some ("أنت مترجم من الفرنسية إلى العربية. " ++
      "ترجم النص الفرنسي إلى العربية. " ++
      "أخرج الترجمة العربية فقط. " ++
      "حافظ على نفس التنسيق الأصلي (فواصل الأسطر، علامات الترقيم، البنية). " ++
      "لا تفسيرات، لا كلمات إضافية.")
  | "en", "fr" => some ("Tu es un traducteur anglais vers français. " ++
      "Traduis le texte anglais de l\u0027utilisateur en français. " ++
      "Retourne UNIQUEMENT la traduction française. " ++
      "Préserve exactement le même formatage que l\u0027entrée (sauts de ligne, ponctuation, structure). " ++
      "N\u0027ajoute ni ne supprime aucun formatage. Pas d\u0027explications, pas de mots supplémentaires.")
  | "en", "ar" => some ("أنت مترجم من الإنجليزية إلى العربية. " ++
      "ترجم النص الإنجليزي إلى العربية. " ++
      "أخرج الترجمة العربية فقط. " ++
      "حافظ على نفس التنسيق الأصلي (فواصل الأسطر، علامات الترقيم، البنية). " ++
      "لا تفسيرات، لا كلمات إضافية.")
  | "ar", "fr" => some ("Tu es un traducteur arabe vers français. " ++
      "Traduis le texte arabe de l\u0027utilisateur en français. " ++
      "Retourne UNIQUEMENT la traduction française. " ++
      "Préserve exactement le même formatage que l\u0027entrée (sauts de ligne, ponctuation, structure). " ++
      "N\u0027ajoute ni ne supprime aucun formatage. Pas d\u0027explications, pas de mots supplémentaires.")
  | "ar", "en" => some ("You are an Arabic to English translator. " ++
      "Translate the user\u0027s Arabic text into English. " ++
      "Output ONLY the English translation. " ++
      "Preserve the exact same formatting as the input (line breaks, punctuation, structure). " ++
      "Do not add or remove any formatting. No explanations, no extra words.")
  | _, _ => none

/-- The closed set of supported language pairs (the keys of
`SYSTEM_PROMPTS`). -/
def supportedPairs : List (String × String) :=
  [("fr", "en"), ("fr", "ar"), ("en", "fr"), ("en", "ar"), ("ar", "fr"), ("ar", "en")]

/-- The request body sent to `/api/generate` by `translate_text`: model name,
prompt, optional `system` field and whether sampling `options` are included. -/
structure GenPayload where
  model : String
  prompt : String
  system : Option String
  options : Bool
deriving DecidableEq, Repr

/-- What one call of `translate_text` does before any network I/O. -/
inductive TranslateStep where
  | breakerDenied
  | unsupportedPair
  | backendCall (p : GenPayload)
deriving DecidableEq, Repr

/-- Payload shaping of `translate_text` once the breaker permits and the pair
has a prompt: cloud models fold the instructions into the prompt and drop the
`system` and `options` fields. -/
def mkTranslatePayload (text system_prompt used_model : String) : GenPayload :=
  if isCloudModel used_model then
    { model := used_model,
      prompt := "[INSTRUCTIONS: " ++ system_prompt ++ "]\n\n" ++ text,
      system := none, options := false }
  else
    { model := used_model, prompt := text,
      system := some system_prompt, options := true }

/-- `OllamaTranslator.translate_text` up to the backend call: first the
circuit-breaker gate, then the system-prompt lookup (`if not system_prompt`),
then payload shaping.  Returns the action taken and the updated breaker. -/
def translateTextStep (cb : CircuitBreaker) (now : Nat)
    (text source_lang target_lang : String)
    (modelArg : Option String) (defaultModel : String) : TranslateStep × CircuitBreaker :=
  if (cb.can_attempt now).1 = false then
    (.breakerDenied, (cb.can_attempt now).2)
  else
    match SYSTEM_PROMPTS source_lang target_lang with
    | none => (.unsupportedPair, (cb.can_attempt now).2)
    | some system_prompt =>
        if system_prompt = "" then (.unsupportedPair, (cb.can_attempt now).2)
        else
          (.backendCall (mkTranslatePayload text system_prompt (modelArg.getD defaultModel)),
            (cb.can_attempt now).2)

theorem can_attempt_snd_failures (cb : CircuitBreaker) (now : Nat) :
    ((cb.can_attempt now).2).failures = cb.failures := by
  cases hs : cb.state
  · rw [can_attempt_closed cb now hs]
  · by_cases hc : now - cb.last_failure_time > cb.timeout
    · rw [can_attempt_opened_elapsed cb now hs hc]
    · rw [can_attempt_opened_recent cb now hs hc]
  · rw [can_attempt_halfOpen cb now hs]

theorem supported_prompt_exists (src tgt : String)
    (h : (src, tgt) ∈ supportedPairs) :
    ∃ p, SYSTEM_PROMPTS src tgt = some p ∧ p ≠ "" := by
  simp only [supportedPairs, List.mem_cons, List.not_mem_nil, or_false,
    Prod.mk.injEq] at h
  rcases h with ⟨h1, h2⟩ | ⟨h1, h2⟩ | ⟨h1, h2⟩ | ⟨h1, h2⟩ | ⟨h1, h2⟩ | ⟨h1, h2⟩ <;>
    subst h1 <;> subst h2 <;> exact ⟨_, rfl, by decide⟩

theorem unsupported_prompt_none (src tgt : String)
    (h : (src, tgt) ∉ supportedPairs) :
    SYSTEM_PROMPTS src tgt = none := by
  by_contra hne
  obtain ⟨p, hp⟩ := Option.ne_none_iff_exists'.mp hne
  apply h
  unfold SYSTEM_PROMPTS at hp
  split at hp <;> simp_all [supportedPairs]

/-- C8 — language-pair gating of `translate_text`: for a pair outside the
closed supported set, the call never reaches the backend (it is rejected by
the breaker gate or by the missing system prompt) and reports no failure to
the breaker (`failures` is unchanged); for a pair inside the set, a non-empty
system prompt exists and, breaker permitting, a backend call is attempted. -/
theorem translate_text_pair_gating (cb : CircuitBreaker) (now : Nat)
    (text src tgt : String) (modelArg : Option String) (defaultModel : String) :
    ((src, tgt) ∉ supportedPairs →
      (∀ p, (translateTextStep cb now text src tgt modelArg defaultModel).1 ≠ .backendCall p) ∧
      ((translateTextStep cb now text src tgt modelArg defaultModel).2).failures = cb.failures ∧
      ((cb.can_attempt now).1 = true →
        (translateTextStep cb now text src tgt modelArg defaultModel).1 = .unsupportedPair)) ∧
    ((src, tgt) ∈ supportedPairs →
      (∃ p, SYSTEM_PROMPTS src tgt = some p ∧ p ≠ "") ∧
      ((cb.can_attempt now).1 = true →
        ∃ p, (translateTextStep cb now text src tgt modelArg defaultModel).1 = .backendCall p)) := by
  constructor
  · intro hout
    have hnone := unsupported_prompt_none src tgt hout
    unfold translateTextStep
    rw [hnone]
    by_cases hb : (cb.can_attempt now).1 = false
    · rw [if_pos hb]
      refine ⟨by simp, can_attempt_snd_failures cb now, ?_⟩
      intro ht
      rw [ht] at hb
      simp at hb
    · rw [if_neg hb]
      exact ⟨by simp, can_attempt_snd_failures cb now, fun _ => rfl⟩
  · intro hin
    obtain ⟨p, hp, hpne⟩ := supported_prompt_exists src tgt hin
    refine ⟨⟨p, hp, hpne⟩, ?_⟩
    intro hb
    unfold translateTextStep
    rw [if_neg (by rw [hb]; simp)]
    split
    · simp_all
    · rename_i sp heq
      rw [hp] at heq
      injection heq with heq'
      subst heq'
      rw [if_neg hpne]
      exact ⟨_, rfl⟩

/-- Witness for `translate_text_pair_gating`: the unsupported pair
`("fr", "de")` is rejected as `unsupportedPair` with breaker untouched, and
the supported pair `("fr", "en")` leads to a backend call, starting from a
fresh (closed) breaker at time 0. -/
theorem translate_text_pair_gating_witness :
    ((∀ p, (translateTextStep (CircuitBreaker.init 5 60) 0 "Bonjour" "fr" "de" none
        "mistral-small:latest").1 ≠ .backendCall p) ∧
      ((translateTextStep (CircuitBreaker.init 5 60) 0 "Bonjour" "fr" "de" none
        "mistral-small:latest").2).failures = (CircuitBreaker.init 5 60).failures ∧
      (((CircuitBreaker.init 5 60).can_attempt 0).1 = true →
        (translateTextStep (CircuitBreaker.init 5 60) 0 "Bonjour" "fr" "de" none
          "mistral-small:latest").1 = .unsupportedPair)) ∧
    ((∃ p, SYSTEM_PROMPTS "fr" "en" = some p ∧ p ≠ "") ∧
      (((CircuitBreaker.init 5 60).can_attempt 0).1 = true →
        ∃ p, (translateTextStep (CircuitBreaker.init 5 60) 0 "Bonjour" "fr" "en" none
          "mistral-small:latest").1 = .backendCall p)) :=
  ⟨(translate_text_pair_gating (CircuitBreaker.init 5 60) 0 "Bonjour" "fr" "de" none
      "mistral-small:latest").1 (by decide),
   (translate_text_pair_gating (CircuitBreaker.init 5 60) 0 "Bonjour" "fr" "en" none
      "mistral-small:latest").2 (by decide)⟩

/-! ## XML element model (`lxml` trees as seen by `app/xml_processor.py`) -/

mutual
/-- An XML element as exposed by `lxml`: local tag name (namespaces are
modelled by their local names, as compared by `etree.QName(...).localname`),
the direct text `.text`, the tail text `.tail`, the attributes, and the child
elements. -/
inductive Elem where
  | mk (tag : List Char) (text : Option (List Char)) (tail : Option (List Char))
       (attrs : List (List Char × List Char)) (children : ElemList)
deriving DecidableEq

/-- Children of an element (a specialised list so that structural recursion
over the tree is available). -/
inductive ElemList where
  | nil
  | cons (head : Elem) (tail : ElemList)
deriving DecidableEq
end

def Elem.tag : Elem → List Char
  | .mk t _ _ _ _ => t

def Elem.text : Elem → Option (List Char)
  | .mk _ x _ _ _ => x

def Elem.tail : Elem → Option (List Char)
  | .mk _ _ x _ _ => x

def Elem.attrs : Elem → List (List Char × List Char)
  | .mk _ _ _ a _ => a

def Elem.children : Elem → ElemList
  | .mk _ _ _ _ c => c

def ElemList.toList : ElemList → List Elem
  | .nil => []
  | .cons h t => h :: t.toList

mutual
/-- All proper descendants of an element in document order, each paired with
its parent's tag (the pair that `elem.getparent()` lets the code inspect). -/
def descOf : Elem → List (Elem × List Char)
  | .mk t _ _ _ c => descList t c

def descList (ptag : List Char) : ElemList → List (Elem × List Char)
  | .nil => []
  | .cons c rest => (c, ptag) :: (descOf c ++ descList ptag rest)
end

/-! ## Generic segment extraction (`XMLProcessor.extract_translatable_segments`) -/

/-- `XMLProcessor.TEXT_ELEMENT_XPATHS` reduced to the local names matched by
each `.//sc:…` / `.//sp:…` expression, in source order. -/
def TEXT_ELEMENT_TAGS : List (List Char) :=
  ["para".data, "title".data, "item".data, "caption".data, "legend".data,
   "label".data, "question".data, "answer".data, "comment".data,
   "description".data, "txt".data]

/-- `XMLProcessor.IGNORE_ELEMENTS`. -/
def IGNORE_ELEMENTS : List (List Char) :=
  ["code".data, "math".data, "equation".data, "ref".data, "link".data,
   "url".data, "img".data, "image".data, "video".data, "audio".data,
   "file".data]

/-- One extracted segment: the element, its parent's tag, and the stripped
text (the xpath locator of the code is verified separately below). -/
structure Segment where
  elem : Elem
  parentTag : List Char
  text : List Char
deriving DecidableEq

/-- The per-element filter of `extract_translatable_segments`: skip when the
direct text is `None` or empty after stripping, when the element's local name
is ignored, or when the parent's local name is ignored; otherwise emit the
stripped text (rechecked non-empty, as in the code). -/
def segOf (e : Elem) (ptag : List Char) : Option Segment :=
  match e.text with
  | none => none
  | some txt =>
      if pyStrip txt = [] then none
      else if e.tag ∈ IGNORE_ELEMENTS then none
      else if ptag ∈ IGNORE_ELEMENTS then none
      else if pyStrip txt ≠ [] then some ⟨e, ptag, pyStrip txt⟩
      else none

/-- `extract_translatable_segments`: for each allowlisted tag in source order,
take the matching descendants of the root in document order and keep those
that pass `segOf`. -/
def extract (root : Elem) : List Segment :=
  TEXT_ELEMENT_TAGS.flatMap fun t =>
    ((descOf root).filter fun p => decide (p.1.tag = t)).filterMap fun p =>
      segOf p.1 p.2

/-- C6 — soundness of the generic extractor: every emitted segment has a tag
outside the ignore-list, a parent tag outside the ignore-list, text equal to
the element's direct `.text` stripped of surrounding whitespace, and that
text is non-empty (emptiness judged on `.text` only, never on child text). -/
theorem extract_segment_sound (root : Elem) (s : Segment) (hs : s ∈ extract root) :
    s.elem.tag ∉ IGNORE_ELEMENTS ∧ s.parentTag ∉ IGNORE_ELEMENTS ∧
    s.text = pyStrip (s.elem.text.getD []) ∧ s.text ≠ [] := by
  simp only [extract, List.mem_flatMap, List.mem_filterMap, List.mem_filter] at hs
  obtain ⟨t, -, p, ⟨-, -⟩, hseg⟩ := hs
  cases htext : p.1.text with
  | none => simp [segOf, htext] at hseg
  | some txt =>
    simp only [segOf, htext] at hseg
    split_ifs at hseg with h1 h2 h3
    injection hseg with hseq
    subst hseq
    refine ⟨h2, h3, ?_, h1⟩
    show pyStrip txt = pyStrip ((Elem.text p.1).getD [])
    rw [htext]
    rfl

/-- Concrete two-child document for the extractor witness: an `item` root with
one translatable `para` and one ignored `code` child. -/
def sampleExtractDoc : Elem :=
  .mk "item".data none none []
    (.cons (.mk "para".data (some " Bonjour ".data) none [] .nil)
      (.cons (.mk "code".data (some "x = 1".data) none [] .nil) .nil))

/-- The one segment the extractor finds in `sampleExtractDoc`. -/
def sampleSegment : Segment :=
  ⟨.mk "para".data (some " Bonjour ".data) none [] .nil, "item".data, "Bonjour".data⟩

/-- Witness for `extract_segment_sound` on `sampleExtractDoc`. -/
theorem extract_segment_sound_witness :
    sampleSegment.elem.tag ∉ IGNORE_ELEMENTS ∧
    sampleSegment.parentTag ∉ IGNORE_ELEMENTS ∧
    sampleSegment.text = pyStrip (sampleSegment.elem.text.getD []) ∧
    sampleSegment.text ≠ [] :=
  extract_segment_sound sampleExtractDoc sampleSegment (by decide)

/-! ## Structural locators (`XMLProcessor._get_element_xpath`, C7)

An element of a parsed document is addressed by its position: the list of
child indices from the root.  `xpathParts` computes, for a valid position,
the `path_parts` list the code builds (root tag first); the code then renders
it as `"/" + "/".join(path_parts)`. -/

/-- One component of `path_parts`: the element's tag, with `[index]` appended
exactly when the parent has more than one child of the same tag; `index` is
the 1-based rank among same-tag siblings (`siblings.index(current) + 1`). -/
def childComp (cs : List Elem) (i : Nat) (c : Elem) : List Char :=
  if (cs.countP fun e => decide (e.tag = c.tag)) > 1 then
    c.tag ++ '[' :: (natDigits (((cs.take i).countP fun e => decide (e.tag = c.tag)) + 1)
      ++ [']'])
  else c.tag

/-- `path_parts` below the root: walk the position, collecting one component
per level (`None` when the position leaves the tree). -/
def xpathPartsAux : List Elem → List Nat → Option (List (List Char))
  | _, [] => some []
  | cs, i :: rest =>
    match cs.get? i with
    | none => none
    | some c =>
      match xpathPartsAux c.children.toList rest with
      | none => none
      | some parts => some (childComp cs i c :: parts)

/-- The full `path_parts` list of `_get_element_xpath` for the element at
position `pos` (the root contributes its bare tag). -/
def xpathParts (root : Elem) (pos : List Nat) : Option (List (List Char)) :=
  match xpathPartsAux root.children.toList pos with
  | none => none
  | some parts => some (root.tag :: parts)

/-- The rendered locator `"/" + "/".join(path_parts)`. -/
def getElementXpath (root : Elem) (pos : List Nat) : Option (List Char) :=
  (xpathParts root pos).map fun parts => '/' :: List.intercalate ['/'] parts

mutual
/-- XML well-formedness assumption used for locator uniqueness: no tag in the
tree contains `'['` (excluded from XML names). -/
def Elem.tagsOk : Elem → Bool
  | .mk t _ _ _ c => !(decide ('[' ∈ t)) && ElemList.tagsOk c

def ElemList.tagsOk : ElemList → Bool
  | .nil => true
  | .cons h rest => h.tagsOk && ElemList.tagsOk rest
end

theorem elem_tagsOk_iff (t : List Char) (x tl : Option (List Char))
    (a : List (List Char × List Char)) (c : ElemList) :
    Elem.tagsOk (.mk t x tl a c) = true ↔ ('[' ∉ t) ∧ ElemList.tagsOk c = true := by
  simp [Elem.tagsOk]

theorem tagsOk_bracket_not_mem (e : Elem) (h : e.tagsOk = true) : '[' ∉ e.tag := by
  cases e with
  | mk t x tl a c => exact ((elem_tagsOk_iff t x tl a c).mp h).1

theorem tagsOk_children (e : Elem) (h : e.tagsOk = true) :
    ElemList.tagsOk e.children = true := by
  cases e with
  | mk t x tl a c => exact ((elem_tagsOk_iff t x tl a c).mp h).2

theorem tagsOk_toList : ∀ (el : ElemList), ElemList.tagsOk el = true →
    ∀ e ∈ el.toList, e.tagsOk = true
  | .nil => by
    intro h e he
    exact absurd he (by simp [ElemList.toList])
  | .cons hd tl => by
    intro h e he
    rw [ElemList.tagsOk, Bool.and_eq_true] at h
    rcases (List.mem_cons).mp he with he | he
    · exact he ▸ h.1
    · exact tagsOk_toList tl h.2 e he

theorem countP_take_lt (l : List α) (p : α → Bool) (i j : Nat) (c : α)
    (hij : i < j) (hjl : j ≤ l.length) (hc : l.get? i = some c) (hp : p c = true) :
    (l.take i).countP p < (l.take j).countP p := by
  obtain ⟨hi, hget⟩ := List.get?_eq_some.mp hc
  have hlen : i < (l.take j).length := by
    rw [List.length_take]
    omega
  have hsplit : (l.take j).take i ++ (l.take j).drop i = l.take j :=
    List.take_append_drop i (l.take j)
  have hdrop : (l.take j).drop i = (l.take j)[i] :: (l.take j).drop (i + 1) :=
    List.drop_eq_getElem_cons hlen
  have hgi : (l.take j)[i] = l[i] := List.getElem_take l
  have htt : (l.take j).take i = l.take i := by
    rw [List.take_take]
    congr 1
    omega
  have hpli : p l[i] = true := by
    have h9 : l[i] = c := by
      rw [← hget]
      simp [List.get_eq_getElem]
    rw [h9]
    exact hp
  calc (l.take i).countP p
      < (l.take i).countP p + ((l.take j).drop i).countP p := by
        rw [hdrop, List.countP_cons, hgi]
        rw [if_pos hpli]
        omega
    _ = (l.take j).countP p := by
        rw [← List.countP_append, ← htt, hsplit]

theorem countP_two (l : List α) (p : α → Bool) (i j : Nat) (ci cj : α)
    (hne : i ≠ j) (hci : l.get? i = some ci) (hcj : l.get? j = some cj)
    (hpi : p ci = true) (hpj : p cj = true) : 1 < l.countP p := by
  rcases Nat.lt_or_ge i j with hij | hij
  · have hjlen : j < l.length := (List.get?_eq_some.mp hcj).1
    have h1 := countP_take_lt l p i j ci hij (by omega) hci hpi
    have h2 := countP_take_lt l p j (j + 1) cj (by omega) (by omega) hcj hpj
    have h3 : (l.take (j + 1)).countP p ≤ l.countP p := by
      conv_rhs => rw [← List.take_append_drop (j + 1) l]
      rw [List.countP_append]
      omega
    omega
  · have hij' : j < i := by omega
    have hilen : i < l.length := (List.get?_eq_some.mp hci).1
    have h1 := countP_take_lt l p j i cj hij' (by omega) hcj hpj
    have h2 := countP_take_lt l p i (i + 1) ci (by omega) (by omega) hci hpi
    have h3 : (l.take (i + 1)).countP p ≤ l.countP p := by
      conv_rhs => rw [← List.take_append_drop (i + 1) l]
      rw [List.countP_append]
      omega
    omega

theorem append_bracket_inj (a : List Char) : ∀ (b x y : List Char),
    '[' ∉ a → '[' ∉ b → a ++ '[' :: x = b ++ '[' :: y → a = b ∧ x = y := by
  induction a with
  | nil =>
    intro b x y _ hb h
    cases b with
    | nil =>
      simp only [List.nil_append, List.cons.injEq] at h
      exact ⟨rfl, h.2⟩
    | cons d b' =>
      simp only [List.nil_append, List.cons_append, List.cons.injEq] at h
      exact absurd (h.1 ▸ List.mem_cons_self d b') hb
  | cons c a' ih =>
    intro b x y ha hb h
    cases b with
    | nil =>
      simp only [List.cons_append, List.nil_append, List.cons.injEq] at h
      exact absurd (h.1.symm ▸ List.mem_cons_self c a') ha
    | cons d b' =>
      simp only [List.cons_append, List.cons.injEq] at h
      have ha' : '[' ∉ a' := fun hm => ha (List.mem_cons_of_mem c hm)
      have hb' : '[' ∉ b' := fun hm => hb (List.mem_cons_of_mem d hm)
      obtain ⟨hab, hxy⟩ := ih b' x y ha' hb' h.2
      exact ⟨by rw [h.1, hab], hxy⟩

theorem childComp_inj (cs : List Elem) (i j : Nat) (ci cj : Elem)
    (hci : cs.get? i = some ci) (hcj : cs.get? j = some cj)
    (hti : '[' ∉ ci.tag) (htj : '[' ∉ cj.tag)
    (heq : childComp cs i ci = childComp cs j cj) : i = j := by
  by_contra hne
  by_cases htag : ci.tag = cj.tag
  · have hpj : (fun e => decide (e.tag = ci.tag)) cj = true := by simp [htag]
    have hpi : (fun e => decide (e.tag = ci.tag)) ci = true := by simp
    have hcount : 1 < cs.countP fun e => decide (e.tag = ci.tag) :=
      countP_two cs _ i j ci cj hne hci hcj hpi hpj
    unfold childComp at heq
    rw [← htag] at heq
    rw [if_pos hcount, if_pos hcount] at heq
    have h1 := List.append_right_injective ci.tag heq
    simp only [List.cons.injEq, true_and] at h1
    have h2 := List.append_left_injective [']'] h1
    have h3 := natDigits_injective h2
    have hranks : (cs.take i).countP (fun e => decide (e.tag = ci.tag)) =
        (cs.take j).countP (fun e => decide (e.tag = ci.tag)) := by omega
    rcases Nat.lt_or_ge i j with hij | hij
    · have hjlen : j < cs.length := (List.get?_eq_some.mp hcj).1
      have := countP_take_lt cs (fun e => decide (e.tag = ci.tag)) i j ci hij
        (by omega) hci hpi
      omega
    · have hij' : j < i := by omega
      have hilen : i < cs.length := (List.get?_eq_some.mp hci).1
      have := countP_take_lt cs (fun e => decide (e.tag = ci.tag)) j i cj hij'
        (by omega) hcj hpj
      omega
  · unfold childComp at heq
    split_ifs at heq with hc1 hc2 hc2
    · exact htag (append_bracket_inj _ _ _ _ hti htj heq).1
    · exact htj (heq ▸ List.mem_append_right ci.tag (List.mem_cons_self '[' _))
    · exact hti (heq.symm ▸ List.mem_append_right cj.tag (List.mem_cons_self '[' _))
    · exact htag heq

theorem xpathPartsAux_inj (p1 : List Nat) : ∀ (p2 : List Nat) (cs : List Elem)
    (parts : List (List Char)), (∀ e ∈ cs, e.tagsOk = true) →
    xpathPartsAux cs p1 = some parts → xpathPartsAux cs p2 = some parts →
    p1 = p2 := by
  induction p1 with
  | nil =>
    intro p2 cs parts hok h1 h2
    cases p2 with
    | nil => rfl
    | cons j r2 =>
      exfalso
      have h1' : (some [] : Option (List (List Char))) = some parts := h1
      injection h1' with h1''
      subst h1''
      cases hj : cs.get? j with
      | none =>
        simp only [xpathPartsAux, hj] at h2
        exact absurd h2 (by simp)
      | some cj =>
        simp only [xpathPartsAux, hj] at h2
        cases hr : xpathPartsAux cj.children.toList r2 with
        | none => rw [hr] at h2; exact absurd h2 (by simp)
        | some parts2 => rw [hr] at h2; simp at h2
  | cons i r1 ih =>
    intro p2 cs parts hok h1 h2
    cases p2 with
    | nil =>
      exfalso
      have h2' : (some [] : Option (List (List Char))) = some parts := h2
      injection h2' with h2''
      subst h2''
      cases hi : cs.get? i with
      | none =>
        simp only [xpathPartsAux, hi] at h1
        exact absurd h1 (by simp)
      | some ci =>
        simp only [xpathPartsAux, hi] at h1
        cases hr : xpathPartsAux ci.children.toList r1 with
        | none => rw [hr] at h1; exact absurd h1 (by simp)
        | some parts1 => rw [hr] at h1; simp at h1
    | cons j r2 =>
      cases hi : cs.get? i with
      | none =>
        simp only [xpathPartsAux, hi] at h1
        exact absurd h1 (by simp)
      | some ci =>
        simp only [xpathPartsAux, hi] at h1
        cases hr1 : xpathPartsAux ci.children.toList r1 with
        | none => rw [hr1] at h1; exact absurd h1 (by simp)
        | some parts1 =>
          rw [hr1] at h1
          cases hj : cs.get? j with
          | none =>
            simp only [xpathPartsAux, hj] at h2
            exact absurd h2 (by simp)
          | some cj =>
            simp only [xpathPartsAux, hj] at h2
            cases hr2 : xpathPartsAux cj.children.toList r2 with
            | none => rw [hr2] at h2; exact absurd h2 (by simp)
            | some parts2 =>
              rw [hr2] at h2
              injection h1 with h1'
              injection h2 with h2'
              rw [← h2'] at h1'
              have hcomp : childComp cs i ci = childComp cs j cj :=
                ((List.cons.injEq _ _ _ _).mp h1').1
              have hparts : parts1 = parts2 :=
                ((List.cons.injEq _ _ _ _).mp h1').2
              have hoki : ci.tagsOk = true := hok ci (List.get?_mem hi)
              have hokj : cj.tagsOk = true := hok cj (List.get?_mem hj)
              have hij : i = j := childComp_inj cs i j ci cj hi hj
                (tagsOk_bracket_not_mem ci hoki) (tagsOk_bracket_not_mem cj hokj) hcomp
              subst hij
              have hcij : ci = cj := by
                rw [hi] at hj
                injection hj
              subst hcij
              have hr : r1 = r2 := ih r2 ci.children.toList parts1
                (tagsOk_toList ci.children (tagsOk_children ci hoki))
                hr1 (hparts ▸ hr2)
              rw [hr]

/-- C7 — locator uniqueness: in a document whose tags contain no `'['`
character (true of all XML names), two positions that are assigned the same
`path_parts` sequence by `_get_element_xpath` are the same position; hence two
distinct elements of the same parsed document never share a structural path. -/
theorem xpath_locator_unique (root : Elem) (hroot : root.tagsOk = true)
    (p1 p2 : List Nat) (parts : List (List Char))
    (h1 : xpathParts root p1 = some parts) (h2 : xpathParts root p2 = some parts) :
    p1 = p2 := by
  cases ha1 : xpathPartsAux root.children.toList p1 with
  | none =>
    simp only [xpathParts, ha1] at h1
    exact absurd h1 (by simp)
  | some parts1 =>
    simp only [xpathParts, ha1] at h1
    cases ha2 : xpathPartsAux root.children.toList p2 with
    | none =>
      simp only [xpathParts, ha2] at h2
      exact absurd h2 (by simp)
    | some parts2 =>
      simp only [xpathParts, ha2] at h2
      injection h1 with h1'
      injection h2 with h2'
      rw [← h2'] at h1'
      have hparts : parts1 = parts2 := ((List.cons.injEq _ _ _ _).mp h1').2
      exact xpathPartsAux_inj p1 p2 root.children.toList parts1
        (tagsOk_toList root.children (tagsOk_children root hroot))
        ha1 (hparts ▸ ha2)

/-- Document with two same-tag siblings used as the locator witness. -/
def sampleXpathDoc : Elem :=
  .mk "root".data none none []
    (.cons (.mk "para".data (some "a".data) none [] .nil)
      (.cons (.mk "para".data (some "b".data) none [] .nil) .nil))

/-- Witness for `xpath_locator_unique` on `sampleXpathDoc` at position `[1]`
(the second `para`, whose component carries the index `[2]`). -/
theorem xpath_locator_unique_witness :
    xpathParts sampleXpathDoc [1] =
      some ["root".data, "para[2]".data] ∧ ([1] : List Nat) = [1] :=
  ⟨by decide,
   xpath_locator_unique sampleXpathDoc (by decide) [1] [1]
     ["root".data, "para[2]".data] (by decide) (by decide)⟩

/-! ## JSON values (the fragment exchanged with the model backend)

`json.loads` / `json.dumps` are modelled on JSON with integer numbers
(no floats) and without `\uXXXX` escapes; every concrete input considered
in the theorems below stays inside this fragment. -/

mutual
inductive JVal where
  | jnull
  | jbool (b : Bool)
  | jnum (n : Int)
  | jstr (s : List Char)
  | jarr (xs : JArr)
  | jobj (kvs : JObj)
deriving DecidableEq

inductive JArr where
  | nil
  | cons (hd : JVal) (tl : JArr)
deriving DecidableEq

inductive JObj where
  | nil
  | cons (k : List Char) (v : JVal) (tl : JObj)
deriving DecidableEq
end

/-- String-character escaping of `json.dumps` (quote, backslash and the named
control escapes; other characters are emitted verbatim on this fragment). -/
def escChar (c : Char) : List Char :=
  if c = '"' then ['\\', '"']
  else if c = '\\' then ['\\', '\\']
  else if c = '\n' then ['\\', 'n']
  else if c = '\r' then ['\\', 'r']
  else if c = '\t' then ['\\', 't']
  else if c = '\x08' then ['\\', 'b']
  else if c = '\x0c' then ['\\', 'f']
  else [c]

/-- `json.dumps` of a string. -/
def dumpStr (s : List Char) : List Char :=
  '"' :: (s.flatMap escChar ++ ['"'])

/-- `str(int)`: decimal digits with a leading minus for negatives. -/
def dumpInt (n : Int) : List Char :=
  if n < 0 then '-' :: natDigits n.natAbs else natDigits n.toNat

mutual
/-- `json.dumps` with the default separators `", "` and `": "`. -/
def dumpVal : JVal → List Char
  | .jnull => ['n', 'u', 'l', 'l']
  | .jbool true => ['t', 'r', 'u', 'e']
  | .jbool false => ['f', 'a', 'l', 's', 'e']
  | .jnum n => dumpInt n
  | .jstr s => dumpStr s
  | .jarr xs => '[' :: (dumpArrItems xs ++ [']'])
  | .jobj kvs => '\x7b' :: (dumpObjItems kvs ++ ['\x7d'])

def dumpArrItems : JArr → List Char
  | .nil => []
  | .cons x .nil => dumpVal x
  | .cons x (.cons y tl) => dumpVal x ++ ',' :: ' ' :: dumpArrItems (.cons y tl)

def dumpObjItems : JObj → List Char
  | .nil => []
  | .cons k v .nil => dumpStr k ++ ':' :: ' ' :: dumpVal v
  | .cons k v (.cons k2 v2 tl) =>
      dumpStr k ++ ':' :: ' ' :: (dumpVal v ++ ',' :: ' ' :: dumpObjItems (.cons k2 v2 tl))
end

/-- The backquote character (0x60), written numerically. -/
def backquote : Char := Char.ofNat 96

/-- Well-formedness of a JSON string for the recovery theorems: no control
character (below 0x20) and no backquote. -/
def strOk (s : List Char) : Bool :=
  s.all fun c => decide (32 ≤ c.toNat) && decide (c ≠ backquote)

mutual
/-- All strings (values and keys) of the JSON value satisfy `strOk`. -/
def JVal.wf : JVal → Bool
  | .jnull => true
  | .jbool _ => true
  | .jnum _ => true
  | .jstr s => strOk s
  | .jarr xs => xs.wf
  | .jobj kvs => kvs.wf

def JArr.wf : JArr → Bool
  | .nil => true
  | .cons x tl => x.wf && tl.wf

def JObj.wf : JObj → Bool
  | .nil => true
  | .cons k v tl => strOk k && v.wf && tl.wf
end

/-! ### A recursive-descent model of Python `json.loads` -/

def isJsonWs (c : Char) : Bool :=
  c = ' ' || c = '\t' || c = '\n' || c = '\r'

def skipWs (s : List Char) : List Char := s.dropWhile isJsonWs

def isDigitCh (c : Char) : Bool :=
  decide (48 ≤ c.toNat) && decide (c.toNat ≤ 57)

/-- Decode one backslash escape (the named escapes of the fragment). -/
def decEsc (c : Char) : Option Char :=
  if c = '"' then some '"'
  else if c = '\\' then some '\\'
  else if c = '/' then some '/'
  else if c = 'n' then some '\n'
  else if c = 'r' then some '\r'
  else if c = 't' then some '\t'
  else if c = 'b' then some '\x08'
  else if c = 'f' then some '\x0c'
  else none

/-- Parse a string body after the opening quote; raw control characters are
rejected, as by strict `json.loads`. -/
def parseStringBody : Nat → List Char → Option (List Char × List Char)
  | 0, _ => none
  | _ + 1, [] => none
  | fuel + 1, c :: cs =>
    if c = '"' then some ([], cs)
    else if c = '\\' then
      match cs with
      | [] => none
      | e :: cs2 =>
        match decEsc e with
        | none => none
        | some d =>
          match parseStringBody fuel cs2 with
          | none => none
          | some (b, r) => some (d :: b, r)
    else if c.toNat < 32 then none
    else
      match parseStringBody fuel cs with
      | none => none
      | some (b, r) => some (c :: b, r)

def parseDigits (acc : Nat) : List Char → Nat × List Char
  | [] => (acc, [])
  | c :: cs =>
    if isDigitCh c then parseDigits (acc * 10 + (c.toNat - 48)) cs
    else (acc, c :: cs)

def parseNumber (s : List Char) : Option (JVal × List Char) :=
  match s with
  | [] => none
  | c :: cs =>
    if c = '-' then
      match cs with
      | [] => none
      | d :: _ =>
        if isDigitCh d then
          some (.jnum (-((parseDigits 0 cs).1 : Int)), (parseDigits 0 cs).2)
        else none
    else if isDigitCh c then
      some (.jnum ((parseDigits 0 (c :: cs)).1 : Int), (parseDigits 0 (c :: cs)).2)
    else none

mutual
def parseVal : Nat → List Char → Option (JVal × List Char)
  | 0, _ => none
  | fuel + 1, s =>
    match s with
    | [] => none
    | c :: cs =>
      if c = '"' then
        match parseStringBody fuel cs with
        | none => none
        | some (b, r) => some (.jstr b, r)
      else if c = '[' then
        match skipWs cs with
        | [] => none
        | d :: r2 =>
          if d = ']' then some (.jarr .nil, r2)
          else
            match parseArrItems fuel (d :: r2) with
            | none => none
            | some (xs, r3) => some (.jarr xs, r3)
      else if c = '\x7b' then
        match skipWs cs with
        | [] => none
        | d :: r2 =>
          if d = '\x7d' then some (.jobj .nil, r2)
          else
            match parseObjItems fuel (d :: r2) with
            | none => none
            | some (kvs, r3) => some (.jobj kvs, r3)
      else if (['n', 'u', 'l', 'l']).isPrefixOf s then some (.jnull, s.drop 4)
      else if (['t', 'r', 'u', 'e']).isPrefixOf s then some (.jbool true, s.drop 4)
      else if (['f', 'a', 'l', 's', 'e']).isPrefixOf s then some (.jbool false, s.drop 5)
      else parseNumber s

def parseArrItems : Nat → List Char → Option (JArr × List Char)
  | 0, _ => none
  | fuel + 1, s =>
    match parseVal fuel s with
    | none => none
    | some (v, r) =>
      match skipWs r with
      | [] => none
      | d :: r2 =>
        if d = ',' then
          match parseArrItems fuel (skipWs r2) with
          | none => none
          | some (xs, r3) => some (.cons v xs, r3)
        else if d = ']' then some (.cons v .nil, r2)
        else none

def parseObjItems : Nat → List Char → Option (JObj × List Char)
  | 0, _ => none
  | fuel + 1, s =>
    match s with
    | [] => none
    | c :: cs =>
      if c = '"' then
        match parseStringBody fuel cs with
        | none => none
        | some (k, r) =>
          match skipWs r with
          | [] => none
          | d :: r2 =>
            if d = ':' then
              match parseVal fuel (skipWs r2) with
              | none => none
              | some (v, r3) =>
                match skipWs r3 with
                | [] => none
                | e :: r4 =>
                  if e = ',' then
                    match parseObjItems fuel (skipWs r4) with
                    | none => none
                    | some (kvs, r5) => some (.cons k v kvs, r5)
                  else if e = '\x7d' then some (.cons k v .nil, r4)
                  else none
            else none
      else none
end

/-- `json.loads`: parse one value, allowing surrounding whitespace only. -/
def jsonLoads (s : List Char) : Option JVal :=
  match parseVal (s.length + 1) (skipWs s) with
  | none => none
  | some (v, r) => if skipWs r = [] then some v else none

/-! ### `_sanitize_json_string` (`app/main.py`) -/

def hexDigitCh (n : Nat) : Char :=
  if n < 10 then Char.ofNat (48 + n) else Char.ofNat (87 + n)

/-- `f"\\u{ord(char):04x}"`: four lowercase hex digits. -/
def hex4 (n : Nat) : List Char :=
  [hexDigitCh (n / 4096 % 16), hexDigitCh (n / 256 % 16),
   hexDigitCh (n / 16 % 16), hexDigitCh (n % 16)]

/-- The character loop of `_sanitize_json_string`, carrying the `in_string`
and `escape_next` flags; control characters are escaped only inside string
literals. -/
def sanitizeLoop : Bool → Bool → List Char → List Char
  | _, _, [] => []
  | inS, true, c :: cs => c :: sanitizeLoop inS false cs
  | inS, false, c :: cs =>
    if c = '\\' then c :: sanitizeLoop inS true cs
    else if c = '"' then c :: sanitizeLoop (!inS) false cs
    else if inS then
      if c = '\n' then '\\' :: 'n' :: sanitizeLoop inS false cs
      else if c = '\r' then '\\' :: 'r' :: sanitizeLoop inS false cs
      else if c = '\t' then '\\' :: 't' :: sanitizeLoop inS false cs
      else if c.toNat < 32 then '\\' :: 'u' :: (hex4 c.toNat ++ sanitizeLoop inS false cs)
      else c :: sanitizeLoop inS false cs
    else c :: sanitizeLoop inS false cs

/-- `_sanitize_json_string`. -/
def sanitizeJsonString (text : List Char) : List Char :=
  sanitizeLoop false false text

/-! ### `_load_json_payload` (`app/main.py`): the four recovery strategies -/

def fence3 : List Char := [backquote, backquote, backquote]

def fenceJson : List Char := fence3 ++ "json".data

/-- Scan forward to the first closing fence; returns the captured content and
the text after the fence. -/
def findClose : List Char → Option (List Char × List Char)
  | [] => none
  | c :: cs =>
    if fence3.isPrefixOf (c :: cs) then some ([], (c :: cs).drop 3)
    else
      match findClose cs with
      | none => none
      | some (content, rest) => some (c :: content, rest)

/-- `re.findall(r'(fenced json block)', raw, re.DOTALL)` with the non-greedy,
whitespace-stripped capture: each `fenceJson` opener captures up to the
earliest closing fence; scanning resumes after the match. -/
def findBlocksF : Nat → List Char → List (List Char)
  | 0, _ => []
  | _ + 1, [] => []
  | fuel + 1, c :: cs =>
    if fenceJson.isPrefixOf (c :: cs) then
      match findClose ((c :: cs).drop 7) with
      | some (content, rest) => pyStrip content :: findBlocksF fuel rest
      | none => []
    else findBlocksF fuel cs

def findBlocks (s : List Char) : List (List Char) := findBlocksF s.length s

/-- Strategy 1: try each fenced block, most recent first (the caller passes
the reversed list), sanitizing before the parse. -/
def tryBlocksRev : List (List Char) → Option JVal
  | [] => none
  | b :: bs =>
    match jsonLoads (sanitizeJsonString (pyStrip b)) with
    | some v => some v
    | none => tryBlocksRev bs

/-- Strategy 2 (first half): strip one leading ```json or ``` fence marker. -/
def stripFenceStart (s : List Char) : List Char :=
  if fenceJson.isPrefixOf s then s.drop 7
  else if fence3.isPrefixOf s then s.drop 3
  else s

/-- Strategy 2 (second half): strip one trailing ``` fence marker. -/
def stripFenceEnd (s : List Char) : List Char :=
  if fence3.isSuffixOf s then s.take (s.length - 3) else s

/-- The `cleaned` text: trimmed input with one layer of fence markers
removed and re-trimmed. -/
def cleanedOf (raw : List Char) : List Char :=
  pyStrip (stripFenceEnd (stripFenceStart (pyStrip raw)))

/-- The quote/escape-aware brace-depth scanner of strategy 3, started at a
`find('\x7b')` position with `depth = 0`; returns the candidate substring
when the depth returns to zero at a closing brace. -/
def braceScanFind (depth : Int) (inS esc : Bool) (acc : List Char) :
    List Char → Option (List Char)
  | [] => none
  | c :: cs =>
    if esc then braceScanFind depth inS false (c :: acc) cs
    else if c = '\\' then braceScanFind depth inS true (c :: acc) cs
    else if c = '"' then braceScanFind depth (!inS) false (c :: acc) cs
    else if inS then braceScanFind depth inS false (c :: acc) cs
    else if c = '\x7b' then braceScanFind (depth + 1) inS false (c :: acc) cs
    else if c = '\x7d' then
      if depth - 1 = 0 then some ((c :: acc).reverse)
      else braceScanFind (depth - 1) inS false (c :: acc) cs
    else braceScanFind depth inS false (c :: acc) cs

/-- All indices of `'\x7b'` in `cleaned`, in increasing order — the sequence
of `brace_start` values visited by `cleaned.find('\x7b', …)`. -/
def braceStarts (s : List Char) : List Nat :=
  (List.range s.length).filter fun i => s.get? i = some '\x7b'

/-- One strategy-3 attempt: balance the braces from index `i`; on a balanced
candidate, sanitize and parse it. -/
def tryCandidate (cleaned : List Char) (i : Nat) : Option JVal :=
  match braceScanFind 0 false false [] (cleaned.drop i) with
  | none => none
  | some cand => jsonLoads (sanitizeJsonString cand)

def braceScanGo (cleaned : List Char) : List Nat → Option JVal
  | [] => none
  | i :: is =>
    match tryCandidate cleaned i with
    | some v => some v
    | none => braceScanGo cleaned is

/-- Strategy 3: first balanced-and-parsing candidate wins, by increasing
start index. -/
def braceScanAll (cleaned : List Char) : Option JVal :=
  braceScanGo cleaned (braceStarts cleaned)

/-- `_load_json_payload`: fenced blocks (most recent first), then fence-marker
stripping, then the brace scan, and a direct parse of the whole cleaned
sanitized text only as the final fallback; `none` models the
`HTTPException(502)` raised when every strategy fails. -/
def loadJsonPayload (raw : List Char) : Option JVal :=
  match tryBlocksRev (findBlocks raw).reverse with
  | some v => some v
  | none =>
    match braceScanAll (cleanedOf raw) with
    | some v => some v
    | none => jsonLoads (sanitizeJsonString (cleanedOf raw))

/-- Modelled from the spec: the claim's strategy order, in which strategy 2
"strips a single leading/trailing fence marker from the whole trimmed input
and retries a direct parse" before the brace scan runs.  This definition
follows the claim's words and is compared against `loadJsonPayload`, which
follows the code. -/
def loadJsonPayloadClaimed (raw : List Char) : Option JVal :=
  match tryBlocksRev (findBlocks raw).reverse with
  | some v => some v
  | none =>
    match jsonLoads (cleanedOf raw) with
    | some v => some v
    | none =>
      match braceScanAll (cleanedOf raw) with
      | some v => some v
      | none => jsonLoads (sanitizeJsonString (cleanedOf raw))

/-! ### Character facts about serialized JSON -/

theorem natDigits_all_digits (n : Nat) :
    ∀ c ∈ natDigits n, 48 ≤ c.toNat ∧ c.toNat ≤ 57 := by
  induction n using Nat.strong_induction_on with
  | _ n ih =>
    by_cases h : n < 10
    · rw [natDigits_eq_base n h]
      intro c hc
      simp only [List.mem_singleton] at hc
      subst hc
      rw [char_toNat_ofNat _ (by omega)]
      omega
    · rw [natDigits_eq_step n h]
      intro c hc
      rcases List.mem_append.mp hc with hc | hc
      · exact ih (n / 10) (Nat.div_lt_self (by omega) (by omega)) c hc
      · simp only [List.mem_singleton] at hc
        subst hc
        rw [char_toNat_ofNat _ (by omega)]
        have := Nat.mod_lt n (show 0 < 10 by omega)
        omega

theorem natDigits_shape (n : Nat) :
    ∃ c r, natDigits n = c :: r := by
  induction n using Nat.strong_induction_on with
  | _ n ih =>
    by_cases h : n < 10
    · exact ⟨_, _, natDigits_eq_base n h⟩
    · obtain ⟨c, r, hcr⟩ := ih (n / 10) (Nat.div_lt_self (by omega) (by omega))
      exact ⟨c, r ++ [Char.ofNat (48 + n % 10)], by rw [natDigits_eq_step n h, hcr]; rfl⟩

/-- A character whose code point lies outside the digit range differs from
every digit character. -/
theorem digit_ne_of_toNat (c d : Char) (h48 : 48 ≤ c.toNat) (h57 : c.toNat ≤ 57)
    (hd : d.toNat < 48 ∨ 57 < d.toNat) : c ≠ d := by
  intro he
  subst he
  omega

theorem digit_not_ws (c : Char) (h48 : 48 ≤ c.toNat) (h57 : c.toNat ≤ 57) :
    isJsonWs c = false := by
  simp only [isJsonWs, Bool.or_eq_false_iff, decide_eq_false_iff_not]
  refine ⟨⟨⟨?_, ?_⟩, ?_⟩, ?_⟩ <;> intro hc <;> subst hc <;> simp_all

theorem digit_isDigitCh (c : Char) (h48 : 48 ≤ c.toNat) (h57 : c.toNat ≤ 57) :
    isDigitCh c = true := by
  simp [isDigitCh, h48, h57]

theorem dumpInt_shape (n : Int) :
    ∃ c r, dumpInt n = c :: r ∧
      ((48 ≤ c.toNat ∧ c.toNat ≤ 57) ∨ c = '-') := by
  unfold dumpInt
  by_cases h : n < 0
  · exact ⟨'-', _, by rw [if_pos h], Or.inr rfl⟩
  · rw [if_neg h]
    obtain ⟨c, r, hcr⟩ := natDigits_shape n.toNat
    refine ⟨c, r, hcr, Or.inl ?_⟩
    exact natDigits_all_digits n.toNat c (by rw [hcr]; exact List.mem_cons_self _ _)

/-- Head of a serialized value: never whitespace, never one of the closing
delimiters, never a backquote. -/
theorem dump_head (x : JVal) :
    ∃ c r, dumpVal x = c :: r ∧ isJsonWs c = false ∧
      c ≠ ']' ∧ c ≠ '\x7d' ∧ c ≠ ',' ∧ c ≠ ':' := by
  cases x with
  | jnull => exact ⟨'n', _, rfl, by decide, by decide, by decide, by decide, by decide⟩
  | jbool b =>
    cases b with
    | true => exact ⟨'t', _, rfl, by decide, by decide, by decide, by decide, by decide⟩
    | false => exact ⟨'f', _, rfl, by decide, by decide, by decide, by decide, by decide⟩
  | jnum n =>
    obtain ⟨c, r, hcr, hc⟩ := dumpInt_shape n
    refine ⟨c, r, hcr, ?_, ?_, ?_, ?_, ?_⟩ <;>
      rcases hc with ⟨h48, h57⟩ | hminus
    · exact digit_not_ws c h48 h57
    · subst hminus; decide
    · exact digit_ne_of_toNat c _ h48 h57 (by decide)
    · subst hminus; decide
    · exact digit_ne_of_toNat c _ h48 h57 (by decide)
    · subst hminus; decide
    · exact digit_ne_of_toNat c _ h48 h57 (by decide)
    · subst hminus; decide
    · exact digit_ne_of_toNat c _ h48 h57 (by decide)
    · subst hminus; decide
  | jstr s => exact ⟨'"', _, rfl, by decide, by decide, by decide, by decide, by decide⟩
  | jarr xs => exact ⟨'[', _, rfl, by decide, by decide, by decide, by decide, by decide⟩
  | jobj kvs => exact ⟨'\x7b', _, rfl, by decide, by decide, by decide, by decide, by decide⟩

theorem skipWs_cons_not_ws (c : Char) (cs : List Char) (h : isJsonWs c = false) :
    skipWs (c :: cs) = c :: cs := by
  simp [skipWs, List.dropWhile_cons, h]

theorem skipWs_dump (x : JVal) (rest : List Char) :
    skipWs (dumpVal x ++ rest) = dumpVal x ++ rest := by
  obtain ⟨c, r, hcr, hws, -⟩ := dump_head x
  rw [hcr, List.cons_append]
  exact skipWs_cons_not_ws c _ hws

theorem not_prefix_head_ne (a c : Char) (as cs : List Char) (h : a ≠ c) :
    (a :: as).isPrefixOf (c :: cs) = false := by
  simp only [List.isPrefixOf]
  rw [beq_eq_false_iff_ne.mpr h, Bool.false_and]

/-! ### Parsing what `dumpVal` prints -/

theorem parseStringBody_dump (s : List Char) :
    ∀ (fuel : Nat) (rest : List Char), (∀ c ∈ s, 32 ≤ c.toNat) →
    (s.flatMap escChar).length < fuel →
    parseStringBody fuel (s.flatMap escChar ++ '"' :: rest) = some (s, rest) := by
  induction s with
  | nil =>
    intro fuel rest _ hfuel
    match fuel with
    | g + 1 =>
      simp only [List.flatMap_nil, List.nil_append]
      simp [parseStringBody]
  | cons c cs ih =>
    intro fuel rest hok hfuel
    have hc32 : 32 ≤ c.toNat := hok c (List.mem_cons_self _ _)
    have hcs : ∀ d ∈ cs, 32 ≤ d.toNat := fun d hd => hok d (List.mem_cons_of_mem _ hd)
    rw [List.flatMap_cons] at hfuel ⊢
    by_cases hq : c = '"'
    · subst hq
      have hesc : escChar '"' = ['\\', '"'] := rfl
      rw [hesc] at hfuel ⊢
      match fuel with
      | g + 1 =>
        rw [List.cons_append, List.cons_append]
        have hrec := ih g rest hcs (by simp at hfuel ⊢; omega)
        simp [parseStringBody, decEsc, hrec]
    · by_cases hb : c = '\\'
      · subst hb
        have hesc : escChar '\\' = ['\\', '\\'] := rfl
        rw [hesc] at hfuel ⊢
        match fuel with
        | g + 1 =>
          rw [List.cons_append, List.cons_append]
          have hrec := ih g rest hcs (by simp at hfuel ⊢; omega)
          simp [parseStringBody, decEsc, hrec]
      · have hesc : escChar c = [c] := by
          unfold escChar
          rw [if_neg hq, if_neg hb, if_neg, if_neg, if_neg, if_neg, if_neg]
          all_goals intro hc; subst hc; simp_all
        rw [hesc] at hfuel ⊢
        match fuel with
        | g + 1 =>
          rw [List.cons_append]
          have hrec := ih g rest hcs (by simp at hfuel ⊢; omega)
          simp [parseStringBody, hrec, hq, hb, (show ¬ c.toNat < 32 by omega)]

theorem parseDigits_spec (ds : List Char) (hds : ∀ c ∈ ds, 48 ≤ c.toNat ∧ c.toNat ≤ 57) :
    ∀ (acc : Nat) (rest : List Char),
    (rest = [] ∨ ∃ c cs, rest = c :: cs ∧ isDigitCh c = false) →
    parseDigits acc (ds ++ rest) = (digitsToNat acc ds, rest) := by
  induction ds with
  | nil =>
    intro acc rest hrest
    rcases hrest with h | ⟨c, cs, hcc, hc⟩
    · subst h; rfl
    · subst hcc
      rw [List.nil_append, digitsToNat_nil, parseDigits, if_neg (by rw [hc]; simp)]
  | cons d ds ih =>
    intro acc rest hrest
    obtain ⟨h48, h57⟩ := hds d (List.mem_cons_self _ _)
    rw [List.cons_append, parseDigits,
      if_pos (digit_isDigitCh d h48 h57), digitsToNat_cons]
    exact ih (fun c hc => hds c (List.mem_cons_of_mem _ hc)) _ rest hrest

theorem digitsToNat_zero_natDigits (n : Nat) : digitsToNat 0 (natDigits n) = n := by
  have := digitsToNat_natDigits 0 n
  simpa using this

theorem parseNumber_dumpInt (n : Int) (rest : List Char)
    (hrest : rest = [] ∨ ∃ c cs, rest = c :: cs ∧ isDigitCh c = false) :
    parseNumber (dumpInt n ++ rest) = some (.jnum n, rest) := by
  unfold dumpInt
  by_cases h : n < 0
  · rw [if_pos h]
    obtain ⟨c, r, hcr⟩ := natDigits_shape n.natAbs
    have hdig := natDigits_all_digits n.natAbs
    have hc : 48 ≤ c.toNat ∧ c.toNat ≤ 57 :=
      hdig c (by rw [hcr]; exact List.mem_cons_self _ _)
    have hfold : c :: (r ++ rest) = natDigits n.natAbs ++ rest := by rw [hcr]; rfl
    have hpd := parseDigits_spec (natDigits n.natAbs) hdig 0 rest hrest
    have hval : -((digitsToNat 0 (natDigits n.natAbs) : Nat) : Int) = n := by
      rw [digitsToNat_zero_natDigits]
      omega
    rw [List.cons_append]
    simp only [parseNumber]
    rw [hcr, List.cons_append]
    simp [digit_isDigitCh c hc.1 hc.2, hfold, hpd, hval]
  · rw [if_neg h]
    obtain ⟨c, r, hcr⟩ := natDigits_shape n.toNat
    have hdig := natDigits_all_digits n.toNat
    have hc : 48 ≤ c.toNat ∧ c.toNat ≤ 57 :=
      hdig c (by rw [hcr]; exact List.mem_cons_self _ _)
    have hfold : c :: (r ++ rest) = natDigits n.toNat ++ rest := by rw [hcr]; rfl
    have hpd := parseDigits_spec (natDigits n.toNat) hdig 0 rest hrest
    have hval : ((digitsToNat 0 (natDigits n.toNat) : Nat) : Int) = n := by
      rw [digitsToNat_zero_natDigits]
      omega
    rw [hcr, List.cons_append]
    simp only [parseNumber]
    simp [digit_ne_of_toNat c '-' hc.1 hc.2 (by decide),
      digit_isDigitCh c hc.1 hc.2, hfold, hpd, hval]

/-- What may legally follow a serialized value: nothing, or a separator or
closing bracket. -/
def delimOk (rest : List Char) : Prop :=
  rest = [] ∨ ∃ c cs, rest = c :: cs ∧ (c = ',' ∨ c = ']' ∨ c = '\x7d')

theorem delimOk_digit (rest : List Char) (h : delimOk rest) :
    rest = [] ∨ ∃ c cs, rest = c :: cs ∧ isDigitCh c = false := by
  rcases h with h | ⟨c, cs, hcc, hc⟩
  · exact Or.inl h
  · refine Or.inr ⟨c, cs, hcc, ?_⟩
    rcases hc with h | h | h <;> subst h <;> decide

theorem strOk_ge32 (s : List Char) (h : strOk s = true) : ∀ c ∈ s, 32 ≤ c.toNat := by
  intro c hc
  rw [strOk, List.all_eq_true] at h
  have := h c hc
  simp only [Bool.and_eq_true, decide_eq_true_eq] at this
  exact this.1

theorem dump_len_pos (x : JVal) : 1 ≤ (dumpVal x).length := by
  obtain ⟨c, r, hcr, -⟩ := dump_head x
  rw [hcr]
  simp

theorem isPrefixOf_self_append (l r : List Char) : l.isPrefixOf (l ++ r) = true := by
  rw [List.isPrefixOf_iff_prefix]
  exact List.prefix_append l r

theorem arrItems_head (x : JVal) (tl : JArr) :
    ∃ c r, dumpArrItems (.cons x tl) = c :: r ∧ isJsonWs c = false ∧
      c ≠ ']' ∧ c ≠ '\x7d' ∧ c ≠ ',' ∧ c ≠ ':' := by
  obtain ⟨c, r, hcr, h1, h2, h3, h4, h5⟩ := dump_head x
  cases tl with
  | nil => exact ⟨c, r, hcr, h1, h2, h3, h4, h5⟩
  | cons y tl2 =>
    refine ⟨c, r ++ ',' :: ' ' :: dumpArrItems (.cons y tl2), ?_, h1, h2, h3, h4, h5⟩
    show dumpVal x ++ ',' :: ' ' :: dumpArrItems (.cons y tl2) = _
    rw [hcr]
    rfl

theorem objItems_head (k : List Char) (v : JVal) (tl : JObj) :
    ∃ r, dumpObjItems (.cons k v tl) = '"' :: r := by
  cases tl with
  | nil =>
    refine ⟨(k.flatMap escChar ++ ['"']) ++ (':' :: ' ' :: dumpVal v), ?_⟩
    show dumpStr k ++ ':' :: ' ' :: dumpVal v = _
    rw [dumpStr, List.cons_append]
  | cons k2 v2 tl2 =>
    refine ⟨(k.flatMap escChar ++ ['"']) ++
      (':' :: ' ' :: (dumpVal v ++ ',' :: ' ' :: dumpObjItems (.cons k2 v2 tl2))), ?_⟩
    show dumpStr k ++ ':' :: ' ' ::
      (dumpVal v ++ ',' :: ' ' :: dumpObjItems (.cons k2 v2 tl2)) = _
    rw [dumpStr, List.cons_append]

theorem skipWs_cons_ws (c : Char) (cs : List Char) (h : isJsonWs c = true) :
    skipWs (c :: cs) = skipWs cs := by
  simp [skipWs, List.dropWhile_cons, h]

theorem parseVal_quote (g : Nat) (cs : List Char) :
    parseVal (g + 1) ('"' :: cs) =
      (match parseStringBody g cs with
       | none => none
       | some (b, r) => some (.jstr b, r)) := by
  simp only [parseVal]
  rw [if_pos trivial]

theorem parseVal_bracket_cons (g : Nat) (cs : List Char) (d : Char) (r2 : List Char)
    (hskip : skipWs cs = d :: r2) :
    parseVal (g + 1) ('[' :: cs) =
      (if d = ']' then some (.jarr .nil, r2)
       else
         match parseArrItems g (d :: r2) with
         | none => none
         | some (xs, r3) => some (.jarr xs, r3)) := by
  simp only [parseVal]
  rw [if_pos trivial, hskip]
  rw [if_neg (by decide)]

theorem parseVal_brace_cons (g : Nat) (cs : List Char) (d : Char) (r2 : List Char)
    (hskip : skipWs cs = d :: r2) :
    parseVal (g + 1) ('\x7b' :: cs) =
      (if d = '\x7d' then some (.jobj .nil, r2)
       else
         match parseObjItems g (d :: r2) with
         | none => none
         | some (kvs, r3) => some (.jobj kvs, r3)) := by
  simp only [parseVal]
  rw [if_pos trivial, hskip]
  rw [if_neg (by decide), if_neg (by decide)]

theorem parseArrItems_step (g : Nat) (s r r2 : List Char) (v : JVal) (d : Char)
    (hv : parseVal g s = some (v, r)) (hskip : skipWs r = d :: r2) :
    parseArrItems (g + 1) s =
      (if d = ',' then
        match parseArrItems g (skipWs r2) with
        | none => none
        | some (xs, r3) => some (.cons v xs, r3)
      else if d = ']' then some (.cons v .nil, r2)
      else none) := by
  simp only [parseArrItems, hv, hskip]

theorem parseObjItems_step (g : Nat) (cs r r2 r3 r4 : List Char) (k : List Char)
    (v : JVal) (e : Char)
    (hk : parseStringBody g cs = some (k, r))
    (hc : skipWs r = ':' :: r2)
    (hv : parseVal g (skipWs r2) = some (v, r3))
    (he : skipWs r3 = e :: r4) :
    parseObjItems (g + 1) ('"' :: cs) =
      (if e = ',' then
        match parseObjItems g (skipWs r4) with
        | none => none
        | some (kvs, r5) => some (.cons k v kvs, r5)
      else if e = '\x7d' then some (.cons k v .nil, r4)
      else none) := by
  simp only [parseObjItems, hk, hc, hv, he, eq_self_iff_true, if_true]

mutual
theorem parseVal_dump : ∀ (x : JVal) (fuel : Nat) (rest : List Char),
    x.wf = true → delimOk rest → (dumpVal x).length < fuel →
    parseVal fuel (dumpVal x ++ rest) = some (x, rest)
  | .jnull, fuel, rest => by
    intro _ _ hfuel
    cases fuel with
    | zero => simp at hfuel
    | succ g =>
      show parseVal (g + 1) (['n', 'u', 'l', 'l'] ++ rest) = _
      rw [List.cons_append]
      simp only [parseVal]
      rw [← List.cons_append]
      rw [if_pos (isPrefixOf_self_append ['n', 'u', 'l', 'l'] rest)]
      rw [List.drop_left' (by rfl)]
      simp
  | .jbool true, fuel, rest => by
    intro _ _ hfuel
    cases fuel with
    | zero => simp at hfuel
    | succ g =>
      show parseVal (g + 1) (['t', 'r', 'u', 'e'] ++ rest) = _
      rw [List.cons_append]
      simp only [parseVal]
      have h1 : ¬ (['n', 'u', 'l', 'l'].isPrefixOf ('t' :: (['r', 'u', 'e'] ++ rest)) = true) := by
        rw [not_prefix_head_ne 'n' 't' _ _ (by decide)]
        exact Bool.false_ne_true
      rw [if_neg h1]
      rw [← List.cons_append]
      rw [if_pos (isPrefixOf_self_append ['t', 'r', 'u', 'e'] rest)]
      rw [List.drop_left' (by rfl)]
      simp
  | .jbool false, fuel, rest => by
    intro _ _ hfuel
    cases fuel with
    | zero => simp at hfuel
    | succ g =>
      show parseVal (g + 1) (['f', 'a', 'l', 's', 'e'] ++ rest) = _
      rw [List.cons_append]
      simp only [parseVal]
      have h1 : ¬ (['n', 'u', 'l', 'l'].isPrefixOf ('f' :: (['a', 'l', 's', 'e'] ++ rest)) = true) := by
        rw [not_prefix_head_ne 'n' 'f' _ _ (by decide)]
        exact Bool.false_ne_true
      have h2 : ¬ (['t', 'r', 'u', 'e'].isPrefixOf ('f' :: (['a', 'l', 's', 'e'] ++ rest)) = true) := by
        rw [not_prefix_head_ne 't' 'f' _ _ (by decide)]
        exact Bool.false_ne_true
      rw [if_neg h1, if_neg h2]
      rw [← List.cons_append]
      rw [if_pos (isPrefixOf_self_append ['f', 'a', 'l', 's', 'e'] rest)]
      rw [List.drop_left' (by rfl)]
      simp
  | .jnum n, fuel, rest => by
    intro _ hdelim hfuel
    obtain ⟨c, r, hcr, hc⟩ := dumpInt_shape n
    have hne : c ≠ '"' ∧ c ≠ '[' ∧ c ≠ '\x7b' ∧ c ≠ 'n' ∧ c ≠ 't' ∧ c ≠ 'f' := by
      rcases hc with ⟨h48, h57⟩ | hm
      · exact ⟨digit_ne_of_toNat c _ h48 h57 (by decide),
          digit_ne_of_toNat c _ h48 h57 (by decide),
          digit_ne_of_toNat c _ h48 h57 (by decide),
          digit_ne_of_toNat c _ h48 h57 (by decide),
          digit_ne_of_toNat c _ h48 h57 (by decide),
          digit_ne_of_toNat c _ h48 h57 (by decide)⟩
      · subst hm
        exact ⟨by decide, by decide, by decide, by decide, by decide, by decide⟩
    have hpn := parseNumber_dumpInt n rest (delimOk_digit rest hdelim)
    show parseVal fuel (dumpInt n ++ rest) = _
    rw [hcr] at hpn ⊢
    rw [List.cons_append] at hpn ⊢
    cases fuel with
    | zero => simp at hfuel
    | succ g =>
      simp only [parseVal]
      rw [if_neg hne.1, if_neg hne.2.1, if_neg hne.2.2.1]
      rw [if_neg (by rw [not_prefix_head_ne 'n' c _ _ (Ne.symm hne.2.2.2.1)]; exact
        Bool.false_ne_true)]
      rw [if_neg (by rw [not_prefix_head_ne 't' c _ _ (Ne.symm hne.2.2.2.2.1)]; exact
        Bool.false_ne_true)]
      rw [if_neg (by rw [not_prefix_head_ne 'f' c _ _ (Ne.symm hne.2.2.2.2.2)]; exact
        Bool.false_ne_true)]
      exact hpn
  | .jstr s, fuel, rest => by
    intro hwf _ hfuel
    have hs32 : ∀ c ∈ s, 32 ≤ c.toNat := strOk_ge32 s hwf
    show parseVal fuel (dumpStr s ++ rest) = _
    rw [dumpStr, List.cons_append]
    cases fuel with
    | zero => simp at hfuel
    | succ g =>
      rw [parseVal_quote]
      rw [List.append_assoc, List.singleton_append]
      rw [parseStringBody_dump s g rest hs32 (by
        have hfuel' : (dumpStr s).length < g + 1 := hfuel
        have : (dumpStr s).length = (s.flatMap escChar).length + 2 := by
          rw [dumpStr]
          simp
        omega)]
  | .jarr .nil, fuel, rest => by
    intro _ _ hfuel
    cases fuel with
    | zero => simp at hfuel
    | succ g =>
      show parseVal (g + 1) ('[' :: ((dumpArrItems .nil ++ [']']) ++ rest)) = _
      rw [show dumpArrItems .nil = ([] : List Char) from rfl, List.nil_append,
        List.singleton_append]
      rw [parseVal_bracket_cons g _ ']' rest (skipWs_cons_not_ws ']' rest (by decide))]
      rw [if_pos rfl]
  | .jarr (.cons x tl), fuel, rest => by
    intro hwf _ hfuel
    cases fuel with
    | zero => simp at hfuel
    | succ g =>
      obtain ⟨c0, r0, hitems, hws0, hne0, -, -, -⟩ := arrItems_head x tl
      show parseVal (g + 1)
        ('[' :: ((dumpArrItems (.cons x tl) ++ [']']) ++ rest)) = _
      rw [List.append_assoc, List.singleton_append, hitems, List.cons_append]
      rw [parseVal_bracket_cons g _ c0 (r0 ++ ']' :: rest)
        (skipWs_cons_not_ws c0 _ hws0)]
      rw [if_neg hne0]
      rw [← List.cons_append, ← hitems]
      rw [parseArrItems_dump (.cons x tl) g rest (by simp) hwf (by
        have : (dumpVal (.jarr (.cons x tl))).length =
            (dumpArrItems (.cons x tl)).length + 2 := by
          show ('[' :: (dumpArrItems (.cons x tl) ++ [']'])).length = _
          simp
        omega)]
  | .jobj .nil, fuel, rest => by
    intro _ _ hfuel
    cases fuel with
    | zero => simp at hfuel
    | succ g =>
      show parseVal (g + 1) ('\x7b' :: ((dumpObjItems .nil ++ ['\x7d']) ++ rest)) = _
      rw [show dumpObjItems .nil = ([] : List Char) from rfl, List.nil_append,
        List.singleton_append]
      rw [parseVal_brace_cons g _ '\x7d' rest (skipWs_cons_not_ws '\x7d' rest (by decide))]
      rw [if_pos rfl]
  | .jobj (.cons k v tl), fuel, rest => by
    intro hwf _ hfuel
    cases fuel with
    | zero => simp at hfuel
    | succ g =>
      show parseVal (g + 1)
        ('\x7b' :: ((dumpObjItems (.cons k v tl) ++ ['\x7d']) ++ rest)) = _
      have hhead : ∃ r0, dumpObjItems (.cons k v tl) = '"' :: r0 := by
        cases tl with
        | nil => exact ⟨_, rfl⟩
        | cons k2 v2 tl2 => exact ⟨_, rfl⟩
      obtain ⟨r0, hitems⟩ := hhead
      rw [List.append_assoc, List.singleton_append, hitems, List.cons_append]
      rw [parseVal_brace_cons g _ '"' (r0 ++ '\x7d' :: rest)
        (skipWs_cons_not_ws '"' _ (by decide))]
      rw [if_neg (by decide)]
      rw [← List.cons_append, ← hitems]
      rw [parseObjItems_dump (.cons k v tl) g rest (by simp) hwf (by
        have : (dumpVal (.jobj (.cons k v tl))).length =
            (dumpObjItems (.cons k v tl)).length + 2 := by
          show ('\x7b' :: (dumpObjItems (.cons k v tl) ++ ['\x7d'])).length = _
          simp
        omega)]

theorem parseArrItems_dump : ∀ (xs : JArr) (fuel : Nat) (rest : List Char),
    xs ≠ .nil → xs.wf = true → (dumpArrItems xs).length + 1 < fuel →
    parseArrItems fuel (dumpArrItems xs ++ ']' :: rest) = some (xs, rest)
  | .nil, fuel, rest => by
    intro hne _ _
    exact absurd rfl hne
  | .cons x .nil, fuel, rest => by
    intro _ hwf hfuel
    have hxwf : x.wf = true := by
      rw [JArr.wf, Bool.and_eq_true] at hwf
      exact hwf.1
    cases fuel with
    | zero => simp at hfuel
    | succ g =>
      show parseArrItems (g + 1) (dumpVal x ++ ']' :: rest) = _
      rw [parseArrItems_step g _ (']' :: rest) rest x ']'
        (parseVal_dump x g (']' :: rest) hxwf (Or.inr ⟨_, _, rfl, by decide⟩) (by
          have := dump_len_pos x
          show (dumpVal x).length < g
          have hlen : (dumpArrItems (.cons x .nil)).length = (dumpVal x).length := rfl
          omega))
        (skipWs_cons_not_ws ']' rest (by decide))]
      rw [if_neg (by decide), if_pos rfl]
  | .cons x (.cons y tl2), fuel, rest => by
    intro _ hwf hfuel
    have hwf' : x.wf = true ∧ (JArr.cons y tl2).wf = true := by
      rw [JArr.wf, Bool.and_eq_true] at hwf
      exact hwf
    cases fuel with
    | zero => simp at hfuel
    | succ g =>
      have hlen : (dumpArrItems (.cons x (.cons y tl2))).length =
          (dumpVal x).length + 2 + (dumpArrItems (.cons y tl2)).length := by
        show (dumpVal x ++ ',' :: ' ' :: dumpArrItems (.cons y tl2)).length = _
        simp
        omega
      have hx1 := dump_len_pos x
      have hy1 : 1 ≤ (dumpArrItems (.cons y tl2)).length := by
        obtain ⟨c1, r1, hc1, -⟩ := arrItems_head y tl2
        rw [hc1]
        simp
      obtain ⟨c1, r1, hc1, hws1, -, -, -, -⟩ := arrItems_head y tl2
      show parseArrItems (g + 1)
        ((dumpVal x ++ ',' :: ' ' :: dumpArrItems (.cons y tl2)) ++ ']' :: rest) = _
      rw [List.append_assoc, List.cons_append, List.cons_append]
      rw [parseArrItems_step g _
        (',' :: ' ' :: (dumpArrItems (.cons y tl2) ++ ']' :: rest))
        (' ' :: (dumpArrItems (.cons y tl2) ++ ']' :: rest)) x ','
        (parseVal_dump x g _ hwf'.1 (Or.inr ⟨_, _, rfl, by decide⟩)
          (by rw [hlen] at hfuel; omega))
        (skipWs_cons_not_ws ',' _ (by decide))]
      rw [if_pos rfl]
      rw [skipWs_cons_ws ' ' _ (by decide), hc1, List.cons_append,
        skipWs_cons_not_ws c1 _ hws1, ← List.cons_append, ← hc1]
      rw [parseArrItems_dump (.cons y tl2) g rest (by simp) hwf'.2
        (by rw [hlen] at hfuel; omega)]

theorem parseObjItems_dump : ∀ (kvs : JObj) (fuel : Nat) (rest : List Char),
    kvs ≠ .nil → kvs.wf = true → (dumpObjItems kvs).length + 1 < fuel →
    parseObjItems fuel (dumpObjItems kvs ++ '\x7d' :: rest) = some (kvs, rest)
  | .nil, fuel, rest => by
    intro hne _ _
    exact absurd rfl hne
  | .cons k v .nil, fuel, rest => by
    intro _ hwf hfuel
    have hw : strOk k = true ∧ v.wf = true := by
      rw [JObj.wf, Bool.and_eq_true, Bool.and_eq_true] at hwf
      exact ⟨hwf.1.1, hwf.1.2⟩
    cases fuel with
    | zero => simp at hfuel
    | succ g =>
      have hlen : (dumpObjItems (.cons k v .nil)).length =
          (k.flatMap escChar).length + 2 + 2 + (dumpVal v).length := by
        show (dumpStr k ++ ':' :: ' ' :: dumpVal v).length = _
        rw [dumpStr]
        simp
        omega
      have hv1 := dump_len_pos v
      have hk : parseStringBody g
          (((k.flatMap escChar ++ ['"']) ++ (':' :: ' ' :: dumpVal v)) ++ '\x7d' :: rest) =
          some (k, ':' :: ' ' :: (dumpVal v ++ '\x7d' :: rest)) := by
        have h := parseStringBody_dump k g (':' :: ' ' :: (dumpVal v ++ '\x7d' :: rest))
          (strOk_ge32 k hw.1) (by rw [hlen] at hfuel; omega)
        simpa using h
      show parseObjItems (g + 1) ((dumpStr k ++ ':' :: ' ' :: dumpVal v) ++ '\x7d' :: rest) = _
      rw [dumpStr, List.cons_append, List.cons_append]
      rw [parseObjItems_step g _ (':' :: ' ' :: (dumpVal v ++ '\x7d' :: rest))
        (' ' :: (dumpVal v ++ '\x7d' :: rest)) ('\x7d' :: rest) rest k v '\x7d'
        hk
        (skipWs_cons_not_ws ':' _ (by decide))
        (by
          rw [skipWs_cons_ws ' ' _ (by decide), skipWs_dump v]
          exact parseVal_dump v g _ hw.2 (Or.inr ⟨_, _, rfl, by decide⟩)
            (by rw [hlen] at hfuel; omega))
        (skipWs_cons_not_ws '\x7d' rest (by decide))]
      rw [if_neg (by decide), if_pos rfl]
  | .cons k v (.cons k2 v2 tl2), fuel, rest => by
    intro _ hwf hfuel
    have hw : strOk k = true ∧ v.wf = true ∧ (JObj.cons k2 v2 tl2).wf = true := by
      rw [JObj.wf, Bool.and_eq_true, Bool.and_eq_true] at hwf
      exact ⟨hwf.1.1, hwf.1.2, hwf.2⟩
    cases fuel with
    | zero => simp at hfuel
    | succ g =>
      have hlen : (dumpObjItems (.cons k v (.cons k2 v2 tl2))).length =
          (k.flatMap escChar).length + 2 + 2 + (dumpVal v).length + 2 +
            (dumpObjItems (.cons k2 v2 tl2)).length := by
        show (dumpStr k ++ ':' :: ' ' ::
          (dumpVal v ++ ',' :: ' ' :: dumpObjItems (.cons k2 v2 tl2))).length = _
        rw [dumpStr]
        simp
        omega
      have hv1 := dump_len_pos v
      obtain ⟨r1, hc1⟩ := objItems_head k2 v2 tl2
      have hk : parseStringBody g
          (((k.flatMap escChar ++ ['"']) ++
            (':' :: ' ' :: (dumpVal v ++ ',' :: ' ' :: dumpObjItems (.cons k2 v2 tl2)))) ++
            '\x7d' :: rest) =
          some (k, ':' :: ' ' :: (dumpVal v ++ ',' :: ' ' ::
            (dumpObjItems (.cons k2 v2 tl2) ++ '\x7d' :: rest))) := by
        have h := parseStringBody_dump k g
          (':' :: ' ' :: (dumpVal v ++ ',' :: ' ' ::
            (dumpObjItems (.cons k2 v2 tl2) ++ '\x7d' :: rest)))
          (strOk_ge32 k hw.1) (by rw [hlen] at hfuel; omega)
        simpa using h
      show parseObjItems (g + 1)
        ((dumpStr k ++ ':' :: ' ' ::
          (dumpVal v ++ ',' :: ' ' :: dumpObjItems (.cons k2 v2 tl2))) ++ '\x7d' :: rest) = _
      rw [dumpStr, List.cons_append, List.cons_append]
      rw [parseObjItems_step g _
        (':' :: ' ' :: (dumpVal v ++ ',' :: ' ' ::
          (dumpObjItems (.cons k2 v2 tl2) ++ '\x7d' :: rest)))
        (' ' :: (dumpVal v ++ ',' :: ' ' ::
          (dumpObjItems (.cons k2 v2 tl2) ++ '\x7d' :: rest)))
        (',' :: ' ' :: (dumpObjItems (.cons k2 v2 tl2) ++ '\x7d' :: rest))
        (' ' :: (dumpObjItems (.cons k2 v2 tl2) ++ '\x7d' :: rest)) k v ','
        hk
        (skipWs_cons_not_ws ':' _ (by decide))
        (by
          rw [skipWs_cons_ws ' ' _ (by decide), skipWs_dump v]
          exact parseVal_dump v g _ hw.2.1 (Or.inr ⟨_, _, rfl, by decide⟩)
            (by rw [hlen] at hfuel; omega))
        (skipWs_cons_not_ws ',' _ (by decide))]
      rw [if_pos rfl]
      rw [skipWs_cons_ws ' ' _ (by decide), hc1, List.cons_append,
        skipWs_cons_not_ws '"' _ (by decide), ← List.cons_append, ← hc1]
      rw [parseObjItems_dump (.cons k2 v2 tl2) g rest (by simp) hw.2.2
        (by rw [hlen] at hfuel; omega)]
end

/-! ### Every character of a well-formed serialization is printable and
is not a backquote -/

theorem strOk_elim (s : List Char) (h : strOk s = true) :
    ∀ c ∈ s, 32 ≤ c.toNat ∧ c ≠ backquote := by
  intro c hc
  rw [strOk, List.all_eq_true] at h
  have h2 := h c hc
  simp only [Bool.and_eq_true, decide_eq_true_eq] at h2
  exact h2

theorem char_ne_backquote_of_lt (c : Char) (h : c.toNat < 96) : c ≠ backquote := by
  intro he
  subst he
  exact absurd h (by decide)

theorem escChar_chars (a : Char) (ha32 : 32 ≤ a.toNat) (habq : a ≠ backquote) :
    ∀ c ∈ escChar a, 32 ≤ c.toNat ∧ c ≠ backquote := by
  intro c hc
  rw [escChar] at hc
  by_cases h1 : a = '"'
  · rw [if_pos h1] at hc
    rcases List.mem_cons.mp hc with rfl | hc2
    · exact ⟨by decide, by decide⟩
    · rw [List.mem_singleton.mp hc2]
      exact ⟨by decide, by decide⟩
  rw [if_neg h1] at hc
  by_cases h2 : a = '\\'
  · rw [if_pos h2] at hc
    rcases List.mem_cons.mp hc with rfl | hc2
    · exact ⟨by decide, by decide⟩
    · rw [List.mem_singleton.mp hc2]
      exact ⟨by decide, by decide⟩
  rw [if_neg h2] at hc
  by_cases h3 : a = '\n'
  · rw [if_pos h3] at hc
    rcases List.mem_cons.mp hc with rfl | hc2
    · exact ⟨by decide, by decide⟩
    · rw [List.mem_singleton.mp hc2]
      exact ⟨by decide, by decide⟩
  rw [if_neg h3] at hc
  by_cases h4 : a = '\r'
  · rw [if_pos h4] at hc
    rcases List.mem_cons.mp hc with rfl | hc2
    · exact ⟨by decide, by decide⟩
    · rw [List.mem_singleton.mp hc2]
      exact ⟨by decide, by decide⟩
  rw [if_neg h4] at hc
  by_cases h5 : a = '\t'
  · rw [if_pos h5] at hc
    rcases List.mem_cons.mp hc with rfl | hc2
    · exact ⟨by decide, by decide⟩
    · rw [List.mem_singleton.mp hc2]
      exact ⟨by decide, by decide⟩
  rw [if_neg h5] at hc
  by_cases h6 : a = '\x08'
  · rw [if_pos h6] at hc
    rcases List.mem_cons.mp hc with rfl | hc2
    · exact ⟨by decide, by decide⟩
    · rw [List.mem_singleton.mp hc2]
      exact ⟨by decide, by decide⟩
  rw [if_neg h6] at hc
  by_cases h7 : a = '\x0c'
  · rw [if_pos h7] at hc
    rcases List.mem_cons.mp hc with rfl | hc2
    · exact ⟨by decide, by decide⟩
    · rw [List.mem_singleton.mp hc2]
      exact ⟨by decide, by decide⟩
  rw [if_neg h7] at hc
  rw [List.mem_singleton.mp hc]
  exact ⟨ha32, habq⟩

theorem dumpStr_chars (s : List Char) (h : strOk s = true) :
    ∀ c ∈ dumpStr s, 32 ≤ c.toNat ∧ c ≠ backquote := by
  intro c hc
  rw [dumpStr] at hc
  rcases List.mem_cons.mp hc with rfl | hc2
  · exact ⟨by decide, by decide⟩
  rcases List.mem_append.mp hc2 with hc3 | hc4
  · obtain ⟨a, ha, hca⟩ := List.mem_flatMap.mp hc3
    obtain ⟨ha32, habq⟩ := strOk_elim s h a ha
    exact escChar_chars a ha32 habq c hca
  · rw [List.mem_singleton.mp hc4]
    exact ⟨by decide, by decide⟩

theorem dumpInt_chars (n : Int) :
    ∀ c ∈ dumpInt n, 32 ≤ c.toNat ∧ c ≠ backquote := by
  intro c hc
  rw [dumpInt] at hc
  by_cases hn : n < 0
  · rw [if_pos hn] at hc
    rcases List.mem_cons.mp hc with rfl | hd
    · exact ⟨by decide, by decide⟩
    · obtain ⟨h48, h57⟩ := natDigits_all_digits _ c hd
      exact ⟨by omega, char_ne_backquote_of_lt c (by omega)⟩
  · rw [if_neg hn] at hc
    obtain ⟨h48, h57⟩ := natDigits_all_digits _ c hc
    exact ⟨by omega, char_ne_backquote_of_lt c (by omega)⟩

mutual
theorem dumpVal_chars : ∀ (x : JVal), x.wf = true →
    ∀ c ∈ dumpVal x, 32 ≤ c.toNat ∧ c ≠ backquote
  | .jnull, _, c, hc => by
    have hc2 : c ∈ ['n', 'u', 'l', 'l'] := hc
    simp only [List.mem_cons, List.not_mem_nil, or_false] at hc2
    rcases hc2 with rfl | rfl | rfl | rfl <;> exact ⟨by decide, by decide⟩
  | .jbool true, _, c, hc => by
    have hc2 : c ∈ ['t', 'r', 'u', 'e'] := hc
    simp only [List.mem_cons, List.not_mem_nil, or_false] at hc2
    rcases hc2 with rfl | rfl | rfl | rfl <;> exact ⟨by decide, by decide⟩
  | .jbool false, _, c, hc => by
    have hc2 : c ∈ ['f', 'a', 'l', 's', 'e'] := hc
    simp only [List.mem_cons, List.not_mem_nil, or_false] at hc2
    rcases hc2 with rfl | rfl | rfl | rfl | rfl <;> exact ⟨by decide, by decide⟩
  | .jnum n, _, c, hc => dumpInt_chars n c hc
  | .jstr s, hwf, c, hc => dumpStr_chars s hwf c hc
  | .jarr xs, hwf, c, hc => by
    have hc2 : c ∈ '[' :: (dumpArrItems xs ++ [']']) := hc
    rcases List.mem_cons.mp hc2 with rfl | hc3
    · exact ⟨by decide, by decide⟩
    rcases List.mem_append.mp hc3 with hc4 | hc5
    · exact dumpArrItems_chars xs hwf c hc4
    · rw [List.mem_singleton.mp hc5]
      exact ⟨by decide, by decide⟩
  | .jobj kvs, hwf, c, hc => by
    have hc2 : c ∈ '\x7b' :: (dumpObjItems kvs ++ ['\x7d']) := hc
    rcases List.mem_cons.mp hc2 with rfl | hc3
    · exact ⟨by decide, by decide⟩
    rcases List.mem_append.mp hc3 with hc4 | hc5
    · exact dumpObjItems_chars kvs hwf c hc4
    · rw [List.mem_singleton.mp hc5]
      exact ⟨by decide, by decide⟩

theorem dumpArrItems_chars : ∀ (xs : JArr), xs.wf = true →
    ∀ c ∈ dumpArrItems xs, 32 ≤ c.toNat ∧ c ≠ backquote
  | .nil, _, c, hc => absurd hc (List.not_mem_nil c)
  | .cons x .nil, hwf, c, hc => by
    have hw : x.wf = true := by
      rw [JArr.wf, Bool.and_eq_true] at hwf
      exact hwf.1
    exact dumpVal_chars x hw c hc
  | .cons x (.cons y tl), hwf, c, hc => by
    have hw : x.wf = true ∧ (JArr.cons y tl).wf = true := by
      rw [JArr.wf, Bool.and_eq_true] at hwf
      exact hwf
    have hc2 : c ∈ dumpVal x ++ ',' :: ' ' :: dumpArrItems (.cons y tl) := hc
    rcases List.mem_append.mp hc2 with hc3 | hc4
    · exact dumpVal_chars x hw.1 c hc3
    rcases List.mem_cons.mp hc4 with rfl | hc5
    · exact ⟨by decide, by decide⟩
    rcases List.mem_cons.mp hc5 with rfl | hc6
    · exact ⟨by decide, by decide⟩
    exact dumpArrItems_chars _ hw.2 c hc6

theorem dumpObjItems_chars : ∀ (kvs : JObj), kvs.wf = true →
    ∀ c ∈ dumpObjItems kvs, 32 ≤ c.toNat ∧ c ≠ backquote
  | .nil, _, c, hc => absurd hc (List.not_mem_nil c)
  | .cons k v .nil, hwf, c, hc => by
    have hw : strOk k = true ∧ v.wf = true := by
      rw [JObj.wf, Bool.and_eq_true, Bool.and_eq_true] at hwf
      exact ⟨hwf.1.1, hwf.1.2⟩
    have hc2 : c ∈ dumpStr k ++ ':' :: ' ' :: dumpVal v := hc
    rcases List.mem_append.mp hc2 with hc3 | hc4
    · exact dumpStr_chars k hw.1 c hc3
    rcases List.mem_cons.mp hc4 with rfl | hc5
    · exact ⟨by decide, by decide⟩
    rcases List.mem_cons.mp hc5 with rfl | hc6
    · exact ⟨by decide, by decide⟩
    exact dumpVal_chars v hw.2 c hc6
  | .cons k v (.cons k2 v2 tl2), hwf, c, hc => by
    have hw : strOk k = true ∧ v.wf = true ∧ (JObj.cons k2 v2 tl2).wf = true := by
      rw [JObj.wf, Bool.and_eq_true, Bool.and_eq_true] at hwf
      exact ⟨hwf.1.1, hwf.1.2, hwf.2⟩
    have hc2 : c ∈ dumpStr k ++ ':' :: ' ' ::
        (dumpVal v ++ ',' :: ' ' :: dumpObjItems (.cons k2 v2 tl2)) := hc
    rcases List.mem_append.mp hc2 with hc3 | hc4
    · exact dumpStr_chars k hw.1 c hc3
    rcases List.mem_cons.mp hc4 with rfl | hc5
    · exact ⟨by decide, by decide⟩
    rcases List.mem_cons.mp hc5 with rfl | hc6
    · exact ⟨by decide, by decide⟩
    rcases List.mem_append.mp hc6 with hc7 | hc8
    · exact dumpVal_chars v hw.2.1 c hc7
    rcases List.mem_cons.mp hc8 with rfl | hc9
    · exact ⟨by decide, by decide⟩
    rcases List.mem_cons.mp hc9 with rfl | hc10
    · exact ⟨by decide, by decide⟩
    exact dumpObjItems_chars _ hw.2.2 c hc10
end

/-! ### The sanitizer leaves control-free text unchanged -/

theorem sanitizeLoop_id : ∀ (t : List Char), (∀ c ∈ t, 32 ≤ c.toNat) →
    ∀ (inS esc : Bool), sanitizeLoop inS esc t = t
  | [], _, inS, esc => by cases esc <;> rfl
  | c :: cs, h, inS, esc => by
    have hc := h c (List.mem_cons_self _ _)
    have hcs : ∀ d ∈ cs, 32 ≤ d.toNat := fun d hd => h d (List.mem_cons_of_mem _ hd)
    cases esc with
    | true =>
      show c :: sanitizeLoop inS false cs = c :: cs
      rw [sanitizeLoop_id cs hcs inS false]
    | false =>
      show (if c = '\\' then c :: sanitizeLoop inS true cs
        else if c = '"' then c :: sanitizeLoop (!inS) false cs
        else if inS then
          if c = '\n' then '\\' :: 'n' :: sanitizeLoop inS false cs
          else if c = '\r' then '\\' :: 'r' :: sanitizeLoop inS false cs
          else if c = '\t' then '\\' :: 't' :: sanitizeLoop inS false cs
          else if c.toNat < 32 then
            '\\' :: 'u' :: (hex4 c.toNat ++ sanitizeLoop inS false cs)
          else c :: sanitizeLoop inS false cs
        else c :: sanitizeLoop inS false cs) = c :: cs
      by_cases h1 : c = '\\'
      · rw [if_pos h1, sanitizeLoop_id cs hcs inS true]
      rw [if_neg h1]
      by_cases h2 : c = '"'
      · rw [if_pos h2, sanitizeLoop_id cs hcs (!inS) false]
      rw [if_neg h2]
      by_cases hS : inS = true
      · have h3 : ¬ c = '\n' := fun he => absurd (he ▸ hc) (by decide)
        have h4 : ¬ c = '\r' := fun he => absurd (he ▸ hc) (by decide)
        have h5 : ¬ c = '\t' := fun he => absurd (he ▸ hc) (by decide)
        have h6 : ¬ c.toNat < 32 := by omega
        rw [if_pos hS, if_neg h3, if_neg h4, if_neg h5, if_neg h6,
          sanitizeLoop_id cs hcs inS false]
      · rw [if_neg hS, sanitizeLoop_id cs hcs inS false]

/-- `escChar` either emits a two-character backslash escape or the character
itself, the latter only for characters that are neither quote nor
backslash. -/
theorem escChar_cases (c : Char) :
    (∃ e, escChar c = ['\\', e]) ∨ (escChar c = [c] ∧ c ≠ '"' ∧ c ≠ '\\') := by
  rw [escChar]
  by_cases h1 : c = '"'
  · rw [if_pos h1]; exact Or.inl ⟨'"', rfl⟩
  rw [if_neg h1]
  by_cases h2 : c = '\\'
  · rw [if_pos h2]; exact Or.inl ⟨'\\', rfl⟩
  rw [if_neg h2]
  by_cases h3 : c = '\n'
  · rw [if_pos h3]; exact Or.inl ⟨'n', rfl⟩
  rw [if_neg h3]
  by_cases h4 : c = '\r'
  · rw [if_pos h4]; exact Or.inl ⟨'r', rfl⟩
  rw [if_neg h4]
  by_cases h5 : c = '\t'
  · rw [if_pos h5]; exact Or.inl ⟨'t', rfl⟩
  rw [if_neg h5]
  by_cases h6 : c = '\x08'
  · rw [if_pos h6]; exact Or.inl ⟨'b', rfl⟩
  rw [if_neg h6]
  by_cases h7 : c = '\x0c'
  · rw [if_pos h7]; exact Or.inl ⟨'f', rfl⟩
  rw [if_neg h7]
  exact Or.inr ⟨rfl, h1, h2⟩

/-! ### Single steps of the strategy-3 brace scanner -/

theorem braceScanFind_step_esc (d : Int) (inS : Bool) (acc : List Char) (c : Char)
    (cs : List Char) :
    braceScanFind d inS true acc (c :: cs) = braceScanFind d inS false (c :: acc) cs := by
  simp only [braceScanFind, Bool.false_eq_true, if_false, if_true]

theorem braceScanFind_step_bs (d : Int) (inS : Bool) (acc : List Char)
    (cs : List Char) :
    braceScanFind d inS false acc ('\\' :: cs) =
      braceScanFind d inS true ('\\' :: acc) cs := by
  simp only [braceScanFind, Bool.false_eq_true, if_false, if_true]

theorem braceScanFind_step_quote (d : Int) (inS : Bool) (acc : List Char)
    (cs : List Char) :
    braceScanFind d inS false acc ('"' :: cs) =
      braceScanFind d (!inS) false ('"' :: acc) cs := by
  simp only [braceScanFind, Bool.false_eq_true, if_false, if_true]
  rw [if_neg (by decide : ¬ ('"' = '\\'))]

theorem braceScanFind_step_inStr (d : Int) (acc : List Char) (c : Char)
    (cs : List Char) (h1 : c ≠ '\\') (h2 : c ≠ '"') :
    braceScanFind d true false acc (c :: cs) =
      braceScanFind d true false (c :: acc) cs := by
  simp only [braceScanFind, Bool.false_eq_true, if_false, if_true]
  rw [if_neg h1, if_neg h2]

theorem braceScanFind_step_neutral (d : Int) (acc : List Char) (c : Char)
    (cs : List Char) (h1 : c ≠ '\\') (h2 : c ≠ '"') (h3 : c ≠ '\x7b')
    (h4 : c ≠ '\x7d') :
    braceScanFind d false false acc (c :: cs) =
      braceScanFind d false false (c :: acc) cs := by
  simp only [braceScanFind, Bool.false_eq_true, if_false, if_true]
  rw [if_neg h1, if_neg h2, if_neg h3, if_neg h4]

theorem braceScanFind_step_open (d : Int) (acc : List Char) (cs : List Char) :
    braceScanFind d false false acc ('\x7b' :: cs) =
      braceScanFind (d + 1) false false ('\x7b' :: acc) cs := by
  simp only [braceScanFind, Bool.false_eq_true, if_false, if_true]
  rw [if_neg (by decide : ¬ ('\x7b' = '\\')), if_neg (by decide : ¬ ('\x7b' = '"'))]

theorem braceScanFind_step_close (d : Int) (acc : List Char) (cs : List Char) :
    braceScanFind d false false acc ('\x7d' :: cs) =
      (if d - 1 = 0 then some (('\x7d' :: acc).reverse)
       else braceScanFind (d - 1) false false ('\x7d' :: acc) cs) := by
  simp only [braceScanFind, Bool.false_eq_true, if_false, if_true]
  rw [if_neg (by decide : ¬ ('\x7d' = '\\')), if_neg (by decide : ¬ ('\x7d' = '"')),
    if_neg (by decide : ¬ ('\x7d' = '\x7b'))]

/-! ### The scanner passes over serialized values without stopping -/

theorem braceScanFind_neutral : ∀ (t : List Char),
    (∀ c ∈ t, c ≠ '\\' ∧ c ≠ '"' ∧ c ≠ '\x7b' ∧ c ≠ '\x7d') →
    ∀ (d : Int) (acc rest : List Char),
    braceScanFind d false false acc (t ++ rest) =
      braceScanFind d false false (t.reverse ++ acc) rest
  | [], _, d, acc, rest => by simp
  | c :: cs, h, d, acc, rest => by
    obtain ⟨h1, h2, h3, h4⟩ := h c (List.mem_cons_self _ _)
    have hcs := fun e he => h e (List.mem_cons_of_mem c he)
    rw [List.cons_append, braceScanFind_step_neutral d acc c _ h1 h2 h3 h4,
      braceScanFind_neutral cs hcs d (c :: acc) rest]
    simp [List.append_assoc]

theorem braceScanFind_strBody : ∀ (s : List Char), strOk s = true →
    ∀ (d : Int) (acc rest : List Char),
    braceScanFind d true false acc (s.flatMap escChar ++ rest) =
      braceScanFind d true false ((s.flatMap escChar).reverse ++ acc) rest
  | [], _, d, acc, rest => by simp
  | c :: cs, h, d, acc, rest => by
    have hcs : strOk cs = true := by
      rw [strOk, List.all_cons, Bool.and_eq_true] at h
      exact h.2
    rw [List.flatMap_cons]
    rcases escChar_cases c with ⟨e, he⟩ | ⟨he, hq, hb⟩
    · rw [he, List.append_assoc, List.cons_append, List.cons_append,
        braceScanFind_step_bs, braceScanFind_step_esc, List.nil_append,
        braceScanFind_strBody cs hcs d (e :: '\\' :: acc) rest]
      simp [List.append_assoc]
    · rw [he, List.append_assoc, List.cons_append,
        braceScanFind_step_inStr d acc c _ hb hq, List.nil_append,
        braceScanFind_strBody cs hcs d (c :: acc) rest]
      simp [List.append_assoc]

theorem braceScanFind_str (s : List Char) (h : strOk s = true) (d : Int)
    (acc rest : List Char) :
    braceScanFind d false false acc (dumpStr s ++ rest) =
      braceScanFind d false false ((dumpStr s).reverse ++ acc) rest := by
  rw [dumpStr, List.cons_append, braceScanFind_step_quote]
  simp only [Bool.not_false]
  rw [List.append_assoc, List.singleton_append,
    braceScanFind_strBody s h d ('"' :: acc) ('"' :: rest),
    braceScanFind_step_quote]
  simp only [Bool.not_true]
  simp [List.append_assoc]

theorem dumpInt_neutral (n : Int) : ∀ c ∈ dumpInt n,
    c ≠ '\\' ∧ c ≠ '"' ∧ c ≠ '\x7b' ∧ c ≠ '\x7d' := by
  intro c hc
  rw [dumpInt] at hc
  have hdig : ∀ m, c ∈ natDigits m → c ≠ '\\' ∧ c ≠ '"' ∧ c ≠ '\x7b' ∧ c ≠ '\x7d' := by
    intro m hm
    obtain ⟨h48, h57⟩ := natDigits_all_digits m c hm
    refine ⟨?_, ?_, ?_, ?_⟩ <;> (intro he; subst he; revert h48 h57; decide)
  by_cases hn : n < 0
  · rw [if_pos hn] at hc
    rcases List.mem_cons.mp hc with rfl | hd2
    · exact ⟨by decide, by decide, by decide, by decide⟩
    · exact hdig _ hd2
  · rw [if_neg hn] at hc
    exact hdig _ hc

mutual
theorem braceScanFind_val : ∀ (x : JVal), x.wf = true → ∀ (d : Int), 1 ≤ d →
    ∀ (acc rest : List Char),
    braceScanFind d false false acc (dumpVal x ++ rest) =
      braceScanFind d false false ((dumpVal x).reverse ++ acc) rest
  | .jnull, _, d, _, acc, rest =>
    braceScanFind_neutral ['n', 'u', 'l', 'l'] (by decide) d acc rest
  | .jbool true, _, d, _, acc, rest =>
    braceScanFind_neutral ['t', 'r', 'u', 'e'] (by decide) d acc rest
  | .jbool false, _, d, _, acc, rest =>
    braceScanFind_neutral ['f', 'a', 'l', 's', 'e'] (by decide) d acc rest
  | .jnum n, _, d, _, acc, rest =>
    braceScanFind_neutral (dumpInt n) (dumpInt_neutral n) d acc rest
  | .jstr s, hwf, d, _, acc, rest => braceScanFind_str s hwf d acc rest
  | .jarr xs, hwf, d, hd, acc, rest => by
    show braceScanFind d false false acc (('[' :: (dumpArrItems xs ++ [']'])) ++ rest) = _
    rw [List.cons_append,
      braceScanFind_step_neutral d acc '[' _ (by decide) (by decide) (by decide)
        (by decide),
      List.append_assoc, List.singleton_append,
      braceScanFind_arr xs hwf d hd ('[' :: acc) (']' :: rest),
      braceScanFind_step_neutral d _ ']' rest (by decide) (by decide) (by decide)
        (by decide)]
    simp [dumpVal, List.append_assoc]
  | .jobj kvs, hwf, d, hd, acc, rest => by
    show braceScanFind d false false acc
      (('\x7b' :: (dumpObjItems kvs ++ ['\x7d'])) ++ rest) = _
    rw [List.cons_append, braceScanFind_step_open, List.append_assoc,
      List.singleton_append,
      braceScanFind_obj kvs hwf (d + 1) (by omega) ('\x7b' :: acc) ('\x7d' :: rest),
      braceScanFind_step_close, if_neg (by omega : ¬ (d + 1 - 1 = 0)),
      (by omega : d + 1 - 1 = d)]
    simp [dumpVal, List.append_assoc]

theorem braceScanFind_arr : ∀ (xs : JArr), xs.wf = true → ∀ (d : Int), 1 ≤ d →
    ∀ (acc rest : List Char),
    braceScanFind d false false acc (dumpArrItems xs ++ rest) =
      braceScanFind d false false ((dumpArrItems xs).reverse ++ acc) rest
  | .nil, _, d, _, acc, rest => by simp [dumpArrItems]
  | .cons x .nil, hwf, d, hd, acc, rest => by
    have hw : x.wf = true := by
      rw [JArr.wf, Bool.and_eq_true] at hwf
      exact hwf.1
    exact braceScanFind_val x hw d hd acc rest
  | .cons x (.cons y tl), hwf, d, hd, acc, rest => by
    have hw : x.wf = true ∧ (JArr.cons y tl).wf = true := by
      rw [JArr.wf, Bool.and_eq_true] at hwf
      exact hwf
    show braceScanFind d false false acc
      ((dumpVal x ++ ',' :: ' ' :: dumpArrItems (.cons y tl)) ++ rest) = _
    rw [List.append_assoc, braceScanFind_val x hw.1 d hd acc _, List.cons_append,
      braceScanFind_step_neutral d _ ',' _ (by decide) (by decide) (by decide)
        (by decide),
      List.cons_append,
      braceScanFind_step_neutral d _ ' ' _ (by decide) (by decide) (by decide)
        (by decide),
      braceScanFind_arr (.cons y tl) hw.2 d hd _ rest]
    simp [dumpArrItems, List.append_assoc]

theorem braceScanFind_obj : ∀ (kvs : JObj), kvs.wf = true → ∀ (d : Int), 1 ≤ d →
    ∀ (acc rest : List Char),
    braceScanFind d false false acc (dumpObjItems kvs ++ rest) =
      braceScanFind d false false ((dumpObjItems kvs).reverse ++ acc) rest
  | .nil, _, d, _, acc, rest => by simp [dumpObjItems]
  | .cons k v .nil, hwf, d, hd, acc, rest => by
    have hw : strOk k = true ∧ v.wf = true := by
      rw [JObj.wf, Bool.and_eq_true, Bool.and_eq_true] at hwf
      exact ⟨hwf.1.1, hwf.1.2⟩
    show braceScanFind d false false acc
      ((dumpStr k ++ ':' :: ' ' :: dumpVal v) ++ rest) = _
    rw [List.append_assoc, braceScanFind_str k hw.1 d acc _, List.cons_append,
      braceScanFind_step_neutral d _ ':' _ (by decide) (by decide) (by decide)
        (by decide),
      List.cons_append,
      braceScanFind_step_neutral d _ ' ' _ (by decide) (by decide) (by decide)
        (by decide),
      braceScanFind_val v hw.2 d hd _ rest]
    simp [dumpObjItems, List.append_assoc]
  | .cons k v (.cons k2 v2 tl2), hwf, d, hd, acc, rest => by
    have hw : strOk k = true ∧ v.wf = true ∧ (JObj.cons k2 v2 tl2).wf = true := by
      rw [JObj.wf, Bool.and_eq_true, Bool.and_eq_true] at hwf
      exact ⟨hwf.1.1, hwf.1.2, hwf.2⟩
    show braceScanFind d false false acc
      ((dumpStr k ++ ':' :: ' ' ::
        (dumpVal v ++ ',' :: ' ' :: dumpObjItems (.cons k2 v2 tl2))) ++ rest) = _
    rw [List.append_assoc, braceScanFind_str k hw.1 d acc _, List.cons_append,
      braceScanFind_step_neutral d _ ':' _ (by decide) (by decide) (by decide)
        (by decide),
      List.cons_append,
      braceScanFind_step_neutral d _ ' ' _ (by decide) (by decide) (by decide)
        (by decide),
      List.append_assoc, braceScanFind_val v hw.2.1 d hd _ _, List.cons_append,
      braceScanFind_step_neutral d _ ',' _ (by decide) (by decide) (by decide)
        (by decide),
      List.cons_append,
      braceScanFind_step_neutral d _ ' ' _ (by decide) (by decide) (by decide)
        (by decide),
      braceScanFind_obj (.cons k2 v2 tl2) hw.2.2 d hd _ rest]
    simp [dumpObjItems, List.append_assoc]
end

/-- Started at the opening brace of a serialized object with depth 0, the
quote-aware scanner returns exactly the whole serialization. -/
theorem braceScanFind_dump_obj (kvs : JObj) (hwf : kvs.wf = true) :
    braceScanFind 0 false false [] (dumpVal (.jobj kvs)) =
      some (dumpVal (.jobj kvs)) := by
  show braceScanFind 0 false false [] ('\x7b' :: (dumpObjItems kvs ++ ['\x7d'])) = _
  rw [braceScanFind_step_open, (by omega : (0 : Int) + 1 = 1),
    braceScanFind_obj kvs hwf 1 (by omega) ['\x7b'] ['\x7d'],
    braceScanFind_step_close, if_pos (by omega : (1 : Int) - 1 = 0)]
  simp [dumpVal]

/-! ### The recovery pipeline on an already-serialized object -/

theorem pyStrip_id (a b : Char) (mid : List Char)
    (ha : isPySpace a = false) (hb : isPySpace b = false) :
    pyStrip (a :: (mid ++ [b])) = a :: (mid ++ [b]) := by
  have h1 : List.dropWhile isPySpace (a :: (mid ++ [b])) = a :: (mid ++ [b]) := by
    rw [List.dropWhile_cons, ha]
    simp
  have h2 : (a :: (mid ++ [b])).reverse = b :: (mid.reverse ++ [a]) := by
    simp
  have h3 : List.dropWhile isPySpace (b :: (mid.reverse ++ [a])) =
      b :: (mid.reverse ++ [a]) := by
    rw [List.dropWhile_cons, hb]
    simp
  rw [pyStrip, h1, h2, h3, ← h2, List.reverse_reverse]

theorem stripFenceStart_brace (cs : List Char) :
    stripFenceStart ('\x7b' :: cs) = '\x7b' :: cs := by
  rw [stripFenceStart]
  have h1 : fenceJson.isPrefixOf ('\x7b' :: cs) = false := by
    show (backquote :: _).isPrefixOf _ = false
    exact not_prefix_head_ne _ _ _ _ (by decide)
  have h2 : fence3.isPrefixOf ('\x7b' :: cs) = false := by
    show (backquote :: _).isPrefixOf _ = false
    exact not_prefix_head_ne _ _ _ _ (by decide)
  rw [h1, h2]
  simp

theorem stripFenceEnd_brace (mid : List Char) :
    stripFenceEnd ('\x7b' :: (mid ++ ['\x7d'])) = '\x7b' :: (mid ++ ['\x7d']) := by
  rw [stripFenceEnd]
  have h1 : fence3.isSuffixOf ('\x7b' :: (mid ++ ['\x7d'])) = false := by
    rw [List.isSuffixOf]
    have h2 : ('\x7b' :: (mid ++ ['\x7d'])).reverse = '\x7d' :: (mid.reverse ++ ['\x7b']) := by
      simp
    rw [h2]
    show (backquote :: _).isPrefixOf _ = false
    exact not_prefix_head_ne _ _ _ _ (by decide)
  rw [h1]
  simp

/-- The cleaned text of a serialized object is the serialization itself. -/
theorem cleanedOf_dump_obj (kvs : JObj) :
    cleanedOf (dumpVal (.jobj kvs)) = dumpVal (.jobj kvs) := by
  show cleanedOf ('\x7b' :: (dumpObjItems kvs ++ ['\x7d'])) =
    '\x7b' :: (dumpObjItems kvs ++ ['\x7d'])
  rw [cleanedOf, pyStrip_id '\x7b' '\x7d' _ (by decide) (by decide),
    stripFenceStart_brace, stripFenceEnd_brace,
    pyStrip_id '\x7b' '\x7d' _ (by decide) (by decide)]

/-- Text without a backquote has no fenced block. -/
theorem findBlocksF_nil : ∀ (fuel : Nat) (s : List Char), backquote ∉ s →
    findBlocksF fuel s = []
  | 0, _, _ => rfl
  | _ + 1, [], _ => rfl
  | fuel + 1, c :: cs, h => by
    have hc : fenceJson.isPrefixOf (c :: cs) = false := by
      show (backquote :: _).isPrefixOf _ = false
      refine not_prefix_head_ne _ _ _ _ ?_
      intro he
      apply h
      rw [he]
      exact List.mem_cons_self c cs
    simp only [findBlocksF, hc, Bool.false_eq_true, if_false]
    exact findBlocksF_nil fuel cs (fun hm => h (List.mem_cons_of_mem c hm))

/-- The first `'\x7b'` index the strategy-3 scan visits in a brace-headed
text is index 0. -/
theorem braceStarts_brace_head (cs : List Char) :
    ∃ is, braceStarts ('\x7b' :: cs) = 0 :: is := by
  refine ⟨((List.range cs.length).map Nat.succ).filter
    (fun i => ('\x7b' :: cs).get? i = some '\x7b'), ?_⟩
  rw [braceStarts]
  simp only [List.length_cons, List.range_succ_eq_map, List.filter_cons]
  rw [if_pos (by simp)]

/-- `json.loads` of a well-formed serialization recovers the value. -/
theorem jsonLoads_dump (x : JVal) (hwf : x.wf = true) :
    jsonLoads (dumpVal x) = some x := by
  have hs : skipWs (dumpVal x) = dumpVal x := by
    have h := skipWs_dump x []
    rwa [List.append_nil] at h
  have hp : parseVal ((dumpVal x).length + 1) (dumpVal x) = some (x, []) := by
    have h := parseVal_dump x ((dumpVal x).length + 1) [] hwf (Or.inl rfl)
      (by omega)
    rwa [List.append_nil] at h
  rw [jsonLoads, hs, hp]
  simp [skipWs]

/-- The payload-recovery pipeline applied to the serialization of a
well-formed object: the fenced-block strategy finds nothing (no backquote
occurs), the cleaned text is the serialization itself, and the brace scan
recovers the whole object. -/
theorem loadJsonPayload_dump_obj (kvs : JObj) (hwf : kvs.wf = true) :
    loadJsonPayload (dumpVal (.jobj kvs)) = some (.jobj kvs) := by
  have hchars := dumpVal_chars (.jobj kvs) hwf
  have hnobq : backquote ∉ dumpVal (.jobj kvs) := fun hm => (hchars backquote hm).2 rfl
  have hblocks : findBlocks (dumpVal (.jobj kvs)) = [] :=
    findBlocksF_nil _ _ hnobq
  have hclean := cleanedOf_dump_obj kvs
  have hsan : sanitizeJsonString (dumpVal (.jobj kvs)) = dumpVal (.jobj kvs) :=
    sanitizeLoop_id _ (fun c hc => (hchars c hc).1) false false
  have hscan := braceScanFind_dump_obj kvs hwf
  have hcand : tryCandidate (dumpVal (.jobj kvs)) 0 = some (.jobj kvs) := by
    simp only [tryCandidate, List.drop_zero, hscan]
    rw [hsan]
    exact jsonLoads_dump _ hwf
  obtain ⟨is, his⟩ := braceStarts_brace_head (dumpObjItems kvs ++ ['\x7d'])
  have hall : braceScanAll (dumpVal (.jobj kvs)) = some (.jobj kvs) := by
    rw [braceScanAll]
    show braceScanGo (dumpVal (.jobj kvs))
      (braceStarts ('\x7b' :: (dumpObjItems kvs ++ ['\x7d']))) = _
    rw [his]
    simp only [braceScanGo, hcand]
  rw [loadJsonPayload, hblocks]
  simp only [List.reverse_nil, tryBlocksRev]
  rw [hclean, hall]

/-! ### Concrete recovery inputs -/

/-- The strategy-order test input: a JSON array that contains an object. -/
def c3Input : List Char := "[1, \x7b\"a\": 1\x7d]".data

/-- What a direct whole-text parse of `c3Input` yields. -/
def c3Whole : JVal :=
  .jarr (.cons (.jnum 1) (.cons (.jobj (.cons ['a'] (.jnum 1) .nil)) .nil))

/-- The embedded object the brace scan extracts from `c3Input`. -/
def c3Embedded : JVal := .jobj (.cons ['a'] (.jnum 1) .nil)

/-- An object whose single string value looks like a fenced block; every
character of its serialization is printable (no control characters). -/
def xBad : JVal :=
  .jobj (.cons ['a'] (.jstr ("\x60\x60\x60json 1 \x60\x60\x60".data)) .nil)

/-- The object used by the three-way recovery check. -/
def trioObj : JVal := .jobj (.cons ['a'] (.jstr ['X', '\n', 'Y']) .nil)

/-- `trioObj` wrapped in a fenced block with surrounding prose. -/
def trioFenced : List Char :=
  "Here is the JSON:\n\x60\x60\x60json\n\x7b\"a\": \"X\\nY\"\x7d\n\x60\x60\x60 Done.".data

/-- `trioObj` serialized with an unescaped literal newline inside the
string value. -/
def trioNewline : List Char := "\x7b\"a\": \"X\nY\"\x7d".data

/-- C3, counterexample: the spec's strategy order — fence-marker stripping
with a direct whole-text reparse (strategy 2) before the brace scan
(strategy 3) — disagrees with the code.  On the input `[1, \x7b"a": 1\x7d]`
the whole stripped text parses as a JSON array, so the claimed order
returns the array, but `_load_json_payload` has no such reparse step and
its brace scan returns the embedded object instead. -/
theorem payload_strategy_order_counterexample :
    loadJsonPayloadClaimed c3Input = some c3Whole ∧
    loadJsonPayload c3Input = some c3Embedded ∧
    c3Whole ≠ c3Embedded := by decide

/-- C3 (amended): the recovery strategies actually run in the order fenced
blocks (most recent first), then the quote-aware brace scan over the
cleaned text, and a direct parse of the whole sanitized cleaned text only
as the final fallback; there is no separate whole-text reparse between the
fence stripping and the brace scan, so a successful brace-scan candidate
wins over a parseable whole text. -/
theorem payload_strategy_order_amended (raw : List Char) :
    ((∃ v, tryBlocksRev (findBlocks raw).reverse = some v) →
      loadJsonPayload raw = tryBlocksRev (findBlocks raw).reverse) ∧
    (tryBlocksRev (findBlocks raw).reverse = none →
      (∃ v, braceScanAll (cleanedOf raw) = some v) →
      loadJsonPayload raw = braceScanAll (cleanedOf raw)) ∧
    (tryBlocksRev (findBlocks raw).reverse = none →
      braceScanAll (cleanedOf raw) = none →
      loadJsonPayload raw = jsonLoads (sanitizeJsonString (cleanedOf raw))) := by
  refine ⟨?_, ?_, ?_⟩
  · rintro ⟨v, hv⟩
    rw [loadJsonPayload, hv]
  · rintro h1 ⟨v, hv⟩
    rw [loadJsonPayload, h1, hv]
  · intro h1 h2
    rw [loadJsonPayload, h1, h2]

/-- C3 witness: on `c3Input` the fenced-block strategy finds nothing and
the brace scan succeeds, so the pipeline returns the brace-scan result. -/
theorem payload_strategy_order_amended_witness :
    loadJsonPayload c3Input = braceScanAll (cleanedOf c3Input) :=
  (payload_strategy_order_amended c3Input).2.1 (by decide) ⟨c3Embedded, by decide⟩

/-- C4, counterexample: recovery is not idempotent on every control-free
serialization.  `xBad` is an object whose string value spells a fenced
block; its serialization has no control character anywhere, yet the
fenced-block strategy fires on the backquotes inside the string literal and
recovery returns `1` instead of the object. -/
theorem payload_recovery_counterexample :
    (∀ c ∈ dumpVal xBad, 32 ≤ c.toNat) ∧
    loadJsonPayload (dumpVal xBad) = some (.jnum 1) ∧
    JVal.jnum 1 ≠ xBad := by decide

/-- C4 (amended): recovery is idempotent on the serialization of every
object whose strings contain no control character and no backquote, and
the same logical object is recovered from the raw serialization, from a
fenced block with surrounding prose, and from a serialization with an
unescaped literal newline inside a string value. -/
theorem payload_recovery_amended :
    (∀ kvs : JObj, kvs.wf = true →
      loadJsonPayload (dumpVal (.jobj kvs)) = some (.jobj kvs)) ∧
    loadJsonPayload (dumpVal trioObj) = some trioObj ∧
    loadJsonPayload trioFenced = some trioObj ∧
    loadJsonPayload trioNewline = some trioObj :=
  ⟨loadJsonPayload_dump_obj, by decide, by decide, by decide⟩

/-- C4 witness: the amended idempotence at a concrete object. -/
theorem payload_recovery_amended_witness :
    loadJsonPayload (dumpVal (.jobj (.cons ['k'] (.jnum 7) .nil))) =
      some (.jobj (.cons ['k'] (.jnum 7) .nil)) :=
  payload_recovery_amended.1 (.cons ['k'] (.jnum 7) .nil) (by decide)

/-! ### Serialization configuration (`XMLProcessor.to_bytes` and the
SCENARI `etree.tostring` call) -/

/-- `bytes.find(pat)`: the lowest index where `pat` occurs, if any. -/
def pyFindSub (s pat : List Char) : Option Nat :=
  (List.range (s.length + 1)).find? (fun i => pat.isPrefixOf (s.drop i))

/-- `bytes.find(c, start)`: the lowest index of `c` at or after `start`,
`-1` when absent. -/
def pyFindCharFrom (s : List Char) (c : Char) (start : Nat) : Int :=
  match (s.drop start).findIdx? (fun d => d = c) with
  | some j => ((start + j : Nat) : Int)
  | none => -1

/-- The slice `s[start:stop]` with Python semantics for a negative `stop`. -/
def pySlice (s : List Char) (start : Nat) (stop : Int) : List Char :=
  let e : Nat := if stop < 0 then ((s.length : Int) + stop).toNat else stop.toNat
  (s.take e).drop start

/-- The encoding detection of `XMLProcessor.parse`: when the content starts
with an XML declaration, the text between `encoding="` and the next quote
(with the slice-to-`-1` behaviour when the quote is missing); otherwise
the initial default `utf-8`. -/
def detectEncoding (raw : List Char) : List Char :=
  if ("<?xml".data).isPrefixOf raw then
    match pyFindSub raw ("encoding=\"".data) with
    | some i => pySlice raw (i + 10) (pyFindCharFrom raw '"' (i + 10))
    | none => "utf-8".data
  else "utf-8".data

/-- The keyword arguments of an `etree.tostring` call that decide the
output's declared encoding and formatting. -/
structure SerializeConfig where
  encoding : List Char
  xmlDeclaration : Bool
  prettyPrint : Bool
deriving DecidableEq

/-- `XMLProcessor.to_bytes`: the detected original encoding, a declaration,
and no pretty-printing. -/
def toBytesConfig (raw : List Char) : SerializeConfig :=
  ⟨detectEncoding raw, true, false⟩

/-- The `etree.tostring` call of `ScenariTranslator.translate_file`:
hard-coded `utf-8` with `pretty_print=True`. -/
def scenariSerializeConfig : SerializeConfig := ⟨"utf-8".data, true, true⟩

/-- A document whose declaration carries a non-UTF-8 encoding. -/
def c5Input : List Char :=
  "<?xml version=\"1.0\" encoding=\"ISO-8859-1\"?>\n<root/>".data

/-- C5, counterexample: for an ISO-8859-1 document the processor detects
`ISO-8859-1`, and `to_bytes` would carry it without pretty-printing, but
the SCENARI per-file path serializes with hard-coded `utf-8` and
`pretty_print=True`, so the claim fails on that path: the declared
encoding is not preserved and unrequested pretty-printing is introduced. -/
theorem serialization_encoding_counterexample :
    detectEncoding c5Input = "ISO-8859-1".data ∧
    toBytesConfig c5Input = ⟨"ISO-8859-1".data, true, false⟩ ∧
    scenariSerializeConfig.encoding ≠ detectEncoding c5Input ∧
    scenariSerializeConfig.prettyPrint = true := by decide

/-- C5 (amended): the `XMLProcessor.to_bytes` path serializes with the
detected original encoding (defaulting to `utf-8` without a declaration)
and without pretty-printing, but the SCENARI per-file translation path
always serializes `utf-8` with `pretty_print=True`, whatever the input
declared. -/
theorem serialization_encoding_amended :
    (∀ raw, toBytesConfig raw = ⟨detectEncoding raw, true, false⟩) ∧
    (∀ raw, ("<?xml".data).isPrefixOf raw = false →
      detectEncoding raw = "utf-8".data) ∧
    scenariSerializeConfig = ⟨"utf-8".data, true, true⟩ := by
  refine ⟨fun raw => rfl, fun raw h => ?_, rfl⟩
  rw [detectEncoding, h]
  simp

/-- C5 witness: the default on a declaration-free document. -/
theorem serialization_encoding_amended_witness :
    ("<?xml".data).isPrefixOf "<root/>".data = false ∧
    detectEncoding "<root/>".data = "utf-8".data :=
  ⟨by decide, serialization_encoding_amended.2.1 "<root/>".data (by decide)⟩

/-! ### `ScenariTranslator.translate_file` (`app/scenari.py`) -/

/-- `TranslationProgress` of `app/scenari.py` (`error_message` omitted);
the status strings are `"translating"`, `"done"` and `"error"`. -/
structure TranslationProgress where
  filename : List Char
  current_element : Nat
  total_elements : Nat
  current_text : List Char
  status : List Char
deriving DecidableEq

/-- `TranslationResult` of `app/scenari.py`; the serialized bytes are
represented by the transformed tree carried in `ScenariRun.output`. -/
structure TranslationResult where
  original_filename : List Char
  translated_filename : List Char
  elements_translated : Nat
  total_words : Nat
deriving DecidableEq

/-- The local name of `TRANSLATABLE_TAG` (tags are modelled by local
names, as in the extractor model). -/
def TRANSLATABLE_TAG_LOCAL : List Char := "para".data

/-- The Clark-notation `xml:lang` attribute key set on the root. -/
def LANG_ATTR : List Char :=
  "\x7bhttp://www.w3.org/XML/1998/namespace\x7dlang".data

/-- An optional text, as the empty string when absent. -/
def optText : Option (List Char) → List Char
  | none => []
  | some s => s

mutual
/-- `"".join(element.itertext())`: the element's direct text followed by
each child's subtree text and tail. -/
def Elem.itertext : Elem → List Char
  | .mk _ text _ _ children => optText text ++ ElemList.itertextTail children

def ElemList.itertextTail : ElemList → List Char
  | .nil => []
  | .cons e es => Elem.itertext e ++ optText e.tail ++ ElemList.itertextTail es
end

mutual
/-- The stripped full text of every translatable paragraph in an element's
subtree, the element included, in document order: the texts of the
`translatable` list of `translate_file`. -/
def collectParasE : Elem → List (List Char)
  | .mk tag text tail attrs children =>
    (if tag = TRANSLATABLE_TAG_LOCAL ∧
        pyStrip (Elem.itertext (.mk tag text tail attrs children)) ≠ []
     then [pyStrip (Elem.itertext (.mk tag text tail attrs children))] else [])
      ++ collectParasL children

def collectParasL : ElemList → List (List Char)
  | .nil => []
  | .cons e es => collectParasE e ++ collectParasL es
end

mutual
/-- The per-segment tree transformation: a translatable paragraph whose
generation succeeds loses its children and carries the translated text; on
failure it is left untransformed and its subtree is still visited (the
code's pre-computed element list also holds the nested paragraphs). -/
def translateParasE (backend : List Char → Option (List Char)) : Elem → Elem
  | .mk tag text tail attrs children =>
    if tag = TRANSLATABLE_TAG_LOCAL ∧
        pyStrip (Elem.itertext (.mk tag text tail attrs children)) ≠ [] then
      match backend (pyStrip (Elem.itertext (.mk tag text tail attrs children))) with
      | some t => .mk tag (some t) tail attrs .nil
      | none => .mk tag text tail attrs (translateParasL backend children)
    else .mk tag text tail attrs (translateParasL backend children)

def translateParasL (backend : List Char → Option (List Char)) : ElemList → ElemList
  | .nil => .nil
  | .cons e es => .cons (translateParasE backend e) (translateParasL backend es)
end

def wordCountAux : Bool → List Char → Nat
  | _, [] => 0
  | inW, c :: cs =>
    if isPySpace c then wordCountAux false cs
    else (if inW then 0 else 1) + wordCountAux true cs

/-- `len(text.split())`. -/
def wordCount (s : List Char) : Nat := wordCountAux false s

/-- `text[:50] + "..." if len(text) > 50 else text`. -/
def previewOf (s : List Char) : List Char :=
  if 50 < s.length then s.take 50 ++ "...".data else s

/-- `element.set(key, value)`: replace the attribute or append it. -/
def setAttr (e : Elem) (key value : List Char) : Elem :=
  match e with
  | .mk tag text tail attrs children =>
    .mk tag text tail
      (if attrs.any (fun kv => kv.1 = key)
       then attrs.map (fun kv => if kv.1 = key then (key, value) else kv)
       else attrs ++ [(key, value)])
      children

/-- `element.get(key)`. -/
def getAttr (e : Elem) (key : List Char) : Option (List Char) :=
  match e.attrs.find? (fun kv => kv.1 = key) with
  | some kv => some kv.2
  | none => none

/-- The `lang_map` guard and `root.set(lang_attr, …)` of `translate_file`. -/
def setDocLang (root : Elem) (target : List Char) : Elem :=
  if target = "en".data ∨ target = "fr".data ∨ target = "ar".data then
    setAttr root LANG_ATTR target
  else root

/-- `filename.rsplit('.', 1)` with the `_lang` suffix insertion. -/
def translatedFilename (filename target : List Char) : List Char :=
  match (filename.reverse).findIdx? (fun c => c = '.') with
  | some j =>
    let k := filename.length - 1 - j
    filename.take k ++ '_' :: (target ++ '.' :: filename.drop (k + 1))
  | none => filename ++ '_' :: target

/-- The per-segment `translating` events, enumerated from 1. -/
def segmentEvents (filename : List Char) (texts : List (List Char)) :
    List TranslationProgress :=
  (List.range texts.length).map fun i =>
    ⟨filename, i + 1, texts.length, previewOf (texts.getD i []), "translating".data⟩

/-- Everything observable of one `translate_file` run: the progress events
in order, the final result, the number of generation calls, and the
transformed document. -/
structure ScenariRun where
  events : List TranslationProgress
  result : Option TranslationResult
  genCalls : Nat
  output : Option Elem
deriving DecidableEq

/-- Modelled from the spec: the backend call of the per-segment loop.  The
method `translate_xml_text` that `translate_file` invokes is absent from
the repository's source, and per the spec each non-empty paragraph causes
exactly one generation call that returns either a translation or no
result, so the backend is a function from the segment's text to an
optional translation.  Everything else follows `app/scenari.py`: a parse
failure (`none` document) yields a single `error` event and no result;
every pre-collected non-empty paragraph is sent to the backend in document
order; a failed segment leaves the element untransformed and processing
continues; the root language attribute is set through `lang_map`; and the
terminal `done` event carries the result. -/
def translateFile (doc : Option Elem) (filename source target : List Char)
    (backend : List Char → Option (List Char)) : ScenariRun :=
  match doc with
  | none => ⟨[⟨filename, 0, 0, [], "error".data⟩], none, 0, none⟩
  | some root =>
    let texts := collectParasL (Elem.children root)
    let n := texts.length
    ⟨segmentEvents filename texts ++ [⟨filename, n, n, [], "done".data⟩],
     some ⟨filename, translatedFilename filename target,
       (texts.filter (fun t => (backend t).isSome)).length,
       (texts.map wordCount).sum⟩,
     n,
     some (setDocLang
       (match root with
        | .mk tag text tail attrs children =>
          .mk tag text tail attrs (translateParasL backend children)) target)⟩

/-- A 2-paragraph document whose second paragraph is blank. -/
def sampleScenariDoc : Elem :=
  .mk "document".data none none []
    (.cons (.mk "para".data (some "Bonjour le monde".data) none [] .nil)
      (.cons (.mk "para".data (some "   ".data) none [] .nil) .nil))

/-- A 2-paragraph document with two non-empty paragraphs. -/
def sampleScenariDoc2 : Elem :=
  .mk "document".data none none []
    (.cons (.mk "para".data (some "Un".data) none [] .nil)
      (.cons (.mk "para".data (some "Deux".data) none [] .nil) .nil))

/-- C9: on a 2-paragraph document with one blank paragraph (source `fr`,
target `en`) and a backend returning a fixed translation, `translate_file`
makes exactly one generation call, ends with a terminal `done` event, sets
the root `xml:lang` to `en`, and names the output with the `_en` suffix; a
parse failure yields a single `error` event and no result; and per-segment
failures do not abort the document: with an always-failing backend both
non-empty paragraphs of a 2-paragraph document are still attempted, the
paragraphs stay untransformed (only the language attribute changes), and
the terminal `done` event is still emitted with zero translated
elements. -/
theorem scenari_translate_file_end_to_end :
    (let run := translateFile (some sampleScenariDoc) "doc.xml".data "fr".data "en".data
        (fun _ => some "Hello world".data)
     run.genCalls = 1 ∧
     run.events.getLast? = some ⟨"doc.xml".data, 1, 1, [], "done".data⟩ ∧
     (run.output.map fun r => getAttr r LANG_ATTR) = some (some "en".data) ∧
     (run.result.map fun r => r.elements_translated) = some 1 ∧
     (run.result.map fun r => r.translated_filename) = some "doc_en.xml".data) ∧
    (let run2 := translateFile (some sampleScenariDoc2) "doc.xml".data "fr".data "en".data
        (fun _ => none)
     run2.genCalls = 2 ∧
     run2.events.getLast? = some ⟨"doc.xml".data, 2, 2, [], "done".data⟩ ∧
     (run2.result.map fun r => r.elements_translated) = some 0 ∧
     run2.output = some (setDocLang sampleScenariDoc2 "en".data)) ∧
    translateFile none "doc.xml".data "fr".data "en".data (fun _ => none) =
      ⟨[⟨"doc.xml".data, 0, 0, [], "error".data⟩], none, 0, none⟩ := by decide

end Tradia
